import Mathlib

/-! A shallow embedding of the incremental-ingestion core of the Yaml-Pipe
repository: the dynamic schema synthesiser (`yamlpipe/utils/dynamic_schemas.py`),
the LanceDB and ChromaDB sink upsert protocol (`yamlpipe/components/sinks.py`),
the fingerprint ledger (`yamlpipe/utils/state_manager.py` and
`vectorflow/core/state_manager.py`) and the orchestrator commit step
(`yamlpipe/core/pipeline.py`, `vectorflow/core/pipeline.py`).

Python dicts are modelled as insertion-ordered association lists with unique
keys, numbers and datetimes carry opaque payloads (no claim depends on their
arithmetic), and fallible library calls return `Except`. -/

deriving instance DecidableEq for Except

namespace YamlPipe

/-! ### Association lists: the model of Python `dict` -/

/-- `d.get(k)`: the binding of `k` (first match; Python dict keys are unique). -/
def getA {α : Type} : List (String × α) → String → Option α
  | [], _ => none
  | p :: rest, k => if p.1 = k then some p.2 else getA rest k

/-- `d[k] = v`: replace an existing binding in place, otherwise append
(Python dicts preserve insertion order). -/
def setA {α : Type} : List (String × α) → String → α → List (String × α)
  | [], k, v => [(k, v)]
  | p :: rest, k, v => if p.1 = k then (k, v) :: rest else p :: setA rest k v

/-- `d.pop(k)`: drop the binding of `k`. -/
def eraseA {α : Type} : List (String × α) → String → List (String × α)
  | [], _ => []
  | p :: rest, k => if p.1 = k then rest else p :: eraseA rest k

/-! ### Runtime values and documents (`yamlpipe/utils/data_models.py` /
`vectorflow/core/data_models.py`) -/

/-- A Python runtime value as it occurs in document metadata.  Numeric,
list and datetime payloads are opaque (no claim inspects them); `vvec`
is a one-dimensional `numpy.ndarray` whose entries are opaque integers,
so `shape[0]` is the list length; `vother tag` stands for a value of any
runtime type outside the supported scalar set (`dict`, `bool`, `None`, ...),
identified only by its type tag. -/
inductive Val where
  | vstr (s : String)
  | vint (n : Int)
  | vfloat (n : Int)
  | vlist (len : Nat)
  | vtimestamp (t : Nat)
  | vvec (v : List Int)
  | vother (tag : String)
deriving DecidableEq

/-- The Python type of a value, as tested by `type(value)`. -/
inductive PyType where
  | tstr
  | tint
  | tfloat
  | tlist
  | tdatetime
  | tndarray
  | tother (tag : String)
deriving DecidableEq

def Val.pyType : Val → PyType
  | .vstr _ => .tstr
  | .vint _ => .tint
  | .vfloat _ => .tfloat
  | .vlist _ => .tlist
  | .vtimestamp _ => .tdatetime
  | .vvec _ => .tndarray
  | .vother tag => .tother tag

/-- Python truthiness, used by the walrus test
`if source := doc.metadata.get("source")`.  (A multi-element ndarray is
never used as a `source` value in any claim; its branch is nominal.) -/
def Val.truthy : Val → Bool
  | .vstr s => decide (s ≠ "")
  | .vint n => decide (n ≠ 0)
  | .vfloat n => decide (n ≠ 0)
  | .vlist len => decide (len ≠ 0)
  | .vtimestamp _ => true
  | .vvec _ => true
  | .vother _ => true

/-- `Document(content, metadata)`; the metadata dict is an
insertion-ordered association list. -/
structure Document where
  content : String
  metadata : List (String × Val)
deriving DecidableEq

/-- Python dicts cannot hold a key twice; metadata produced by the pipeline
always satisfies this. -/
def mdNodup (d : Document) : Prop := (d.metadata.map Prod.fst).Nodup

instance (d : Document) : Decidable (mdNodup d) := by
  unfold mdNodup; infer_instance

/-- Whether the document's `embedding` metadata value exists and is an
ndarray (`isinstance(first_embedding, np.ndarray)`). -/
def hasVecEmbedding (d : Document) : Bool :=
  match getA d.metadata "embedding" with
  | some (Val.vvec _) => true
  | _ => false

/-! ### Dynamic schema synthesis (`yamlpipe/utils/dynamic_schemas.py`) -/

/-- A field type of the dynamically created Pydantic model: the supported
scalar types plus the fixed-width vector field `Vector(dim)`. -/
inductive FieldType where
  | fstr
  | fint
  | ffloat
  | flist
  | ftimestamp
  | fvector (dim : Nat)
deriving DecidableEq

/-- A synthesized schema: the ordered field dict of the Pydantic model
(`pydantic_to_schema` is the identity in this model, so this also stands for
the PyArrow schema). -/
abbrev Schema : Type := List (String × FieldType)

def schemaNames (s : Schema) : List String := s.map Prod.fst

/-- The module-level `TYPE_MAP` dict: the supported Python scalar types and
the Pydantic field definition each is mapped to. -/
def TYPE_MAP : PyType → Option FieldType
  | .tstr => some .fstr
  | .tint => some .fint
  | .tfloat => some .ffloat
  | .tlist => some .flist
  | .tdatetime => some .ftimestamp
  | _ => none

/-- `type(value) in TYPE_MAP`. -/
def inTypeMap (t : PyType) : Bool := (TYPE_MAP t).isSome

/-- Errors raised by `create_dynamic_pydantic_model`: the two `ValueError`s
and the (unreachable) `TypeError` for an unsupported field type. -/
inductive SchemaError where
  | emptyBatch
  | invalidEmbedding
  | unsupportedType (key : String) (t : PyType)
deriving DecidableEq

/-- One step of the metadata-discovery loop:
`if key not in metadata_fields and type(value) in TYPE_MAP:
metadata_fields[key] = type(value)`. -/
def discStep (acc : List (String × PyType)) (p : String × Val) :
    List (String × PyType) :=
  if (getA acc p.1).isNone && inTypeMap p.2.pyType then acc ++ [(p.1, p.2.pyType)]
  else acc

/-- The discovery loop over every document's metadata (the source runs this
loop twice, the second pass starting again from an empty dict; the result is
the second pass's dict, which this definition computes). -/
def discoverFields (documents : List Document) : List (String × PyType) :=
  documents.foldl (fun acc doc => doc.metadata.foldl discStep acc) []

/-- Step 4 of `create_dynamic_pydantic_model`: add a Pydantic field for every
discovered metadata key except `embedding`, raising `TypeError` on an
unsupported type (unreachable, since discovery only admits supported types). -/
def addFields (pf : Schema) : List (String × PyType) → Except SchemaError Schema
  | [] => .ok pf
  | (k, t) :: rest =>
    if k = "embedding" then addFields pf rest
    else
      match TYPE_MAP t with
      | some ft => addFields (setA pf k ft) rest
      | none => .error (.unsupportedType k t)

/-- `create_dynamic_pydantic_model(documents)`: synthesize the Pydantic model
(ordered field dict) for a chunk batch. -/
def create_dynamic_pydantic_model (documents : List Document) :
    Except SchemaError Schema :=
  match documents with
  | [] => .error .emptyBatch
  | first :: _ =>
    let metadata_fields := discoverFields documents
    let pf0 : Schema := [("text", .fstr)]
    match getA first.metadata "embedding" with
    | some (.vvec v) =>
      let pf1 := setA pf0 "vector" (.fvector v.length)
      addFields pf1 metadata_fields
    | _ => .error .invalidEmbedding

/-! ### Sink upsert protocol (`yamlpipe/components/sinks.py`)

The LanceDB connection is taken as given (a `DB` value); network/connect
failures are outside the claims.  A record / DataFrame row is a dict whose
cells are `Option Val` (`none` models Python `None` / pandas `NaN` / an unset
field).  `Table.addDF` models `lancedb` table `add` of a pandas frame: it
errors when the frame's column set differs from the table's schema (Arrow
cannot supply values for schema fields the frame lacks, nor accept columns
the schema lacks), and otherwise appends the rows aligned to the schema's
column order. -/

/-- A stored record / DataFrame row: a dict of optional cells. -/
abbrev Rec : Type := List (String × Option Val)

/-- The cell of a row at a column: missing key and `None`/`NaN` both read as
`none`. -/
def getCell (r : Rec) (c : String) : Option Val := (getA r c).join

/-- A pandas DataFrame: a column list plus rows. -/
structure DF where
  cols : List String
  rows : List Rec
deriving DecidableEq

/-- A LanceDB table: its Arrow schema and stored rows (rows are kept aligned
to the schema's columns). -/
structure Table where
  schema : Schema
  rows : List Rec
deriving DecidableEq

/-- The connected LanceDB database: table name → table. -/
abbrev DB : Type := List (String × Table)

/-- Whether the two fallible backend calls of `sink` — `table.delete` and
`table.add` — succeed on this run. -/
structure Backend where
  deleteOk : Bool
  addOk : Bool
deriving DecidableEq

/-- Exceptions arising in the sink paths: `unboundLocal` is the
`UnboundLocalError` raised by the `except ValueError:` handler in
`LanceDBSink.sink` reading the never-bound local `e`; `columnMismatch` is the
Arrow error for adding a frame whose columns differ from the table schema;
`backendAdd` is any other backend failure of `add`; `attributeError` is the
`AttributeError`/`KeyError` from `doc.metadata.get("embedding").tolist()` /
`clean_meta.pop("embedding")` in `ChromaDBSink.sink`. -/
inductive SinkError where
  | unboundLocal
  | columnMismatch
  | backendAdd
  | attributeError
deriving DecidableEq

/-- Align a row to a column list: each column's cell, `none` when absent
(pandas reindex / Arrow cast by column name). -/
def alignRow (cols : List String) (r : Rec) : Rec :=
  cols.map (fun c => (c, getCell r c))

/-- Column set equality up to order (Arrow casts a frame to a table schema by
column name). -/
def sameNames (a b : List String) : Bool :=
  a.all (fun x => b.contains x) && b.all (fun x => a.contains x)

/-- The columns of `pd.DataFrame(records)`: the union of the records' keys in
first-appearance order. -/
def dfColumns (recs : List Rec) : List String :=
  recs.foldl (fun acc r =>
    r.foldl (fun a p => if p.1 ∈ a then a else a ++ [p.1]) acc) []

/-- `pd.DataFrame(records)`: rows aligned to the union of keys. -/
def mkDF (recs : List Rec) : DF :=
  ⟨dfColumns recs, recs.map (alignRow (dfColumns recs))⟩

/-- `table.add(df)`. -/
def Table.addDF (be : Backend) (t : Table) (df : DF) : Except SinkError Table :=
  if sameNames df.cols (schemaNames t.schema) then
    if be.addOk then
      .ok ⟨t.schema, t.rows ++ df.rows.map (alignRow (schemaNames t.schema))⟩
    else .error .backendAdd
  else .error .columnMismatch

/-- `table.to_pandas()`. -/
def Table.toPandas (t : Table) : DF := ⟨schemaNames t.schema, t.rows⟩

/-- `df.reindex(columns=names)`. -/
def DF.reindex (df : DF) (names : List String) : DF :=
  ⟨names, df.rows.map (alignRow names)⟩

/-- `table.delete(where="source = 'v1' OR source = 'v2' OR ...")`: remove the
rows whose `source` cell equals one of the given values. -/
def Table.deleteBySources (t : Table) (vs : List Val) : Table :=
  ⟨t.schema, t.rows.filter (fun r => !(vs.any (fun v => decide (getCell r "source" = some v))))⟩

/-- The keys of `docs_by_source`, in insertion order: the distinct truthy
`source` metadata values of the batch
(`if source := doc.metadata.get("source"): docs_by_source[source].append(doc)`). -/
def sourcesToDelete (documents : List Document) : List Val :=
  documents.foldl (fun acc doc =>
    match getA doc.metadata "source" with
    | some v =>
      if v.truthy then (if v ∈ acc then acc else acc ++ [v]) else acc
    | none => acc) []

/-- The record dict built for one document:
`record = ("text": doc.content, "vector": doc.metadata.get("embedding"))`,
then `record[key] = value` for every metadata key except `embedding`. -/
def recordOf (d : Document) : Rec :=
  let record : Rec := [("text", some (.vstr d.content)), ("vector", getA d.metadata "embedding")]
  (d.metadata.filter (fun p => p.1 ≠ "embedding")).foldl
    (fun r p => setA r p.1 (some p.2)) record

/-- The `try: table.delete(...) except: log` block, guarded by
`if sources_to_delete:`.  A failed delete is logged and leaves the table as
it was. -/
def afterDelete (be : Backend) (srcs : List Val) (t : Table) : Table :=
  if srcs.isEmpty then t
  else if be.deleteOk then t.deleteBySources srcs else t

/-- `LanceDBSink._handle_schema_mismatch`: create a temporary table under the
new schema, add the old rows reindexed to the new columns to it, then drop
the original table, recreate it under the new schema, add the (un-reindexed)
old rows to it, and drop the temporary table.  The `uuid` suffix of the
temporary name is modelled by the fixed suffix `"_temp"`; only its difference
from the table name matters. -/
def handle_schema_mismatch (be : Backend) (db : DB) (tableName : String)
    (table : Table) (new_schema : Schema) : Except SinkError (DB × Table) :=
  let temp_table_name := tableName ++ "_temp"
  let db1 := setA db temp_table_name (⟨new_schema, []⟩ : Table)
  let old_data := table.toPandas
  match (if old_data.rows.isEmpty then .ok (⟨new_schema, []⟩ : Table)
         else Table.addDF be ⟨new_schema, []⟩
           (old_data.reindex (schemaNames new_schema))) with
  | .error err => .error err
  | .ok temp_table =>
    let db2 := setA db1 temp_table_name temp_table
    let db3 := eraseA db2 tableName
    match (if old_data.rows.isEmpty then .ok (⟨new_schema, []⟩ : Table)
           else Table.addDF be ⟨new_schema, []⟩ old_data) with
    | .error err => .error err
    | .ok new_table =>
      let db4 := setA db3 tableName new_table
      let db5 := eraseA db4 temp_table_name
      .ok (db5, new_table)

/-- The `try: table = db.open_table(...) ... except ValueError:` block of
`LanceDBSink.sink`.  When the table is missing, `open_table` raises
`ValueError` and the handler's first statement `str(e)` reads the local `e`
that no live binding defines, raising `UnboundLocalError` — the table is
never created. -/
def openOrMigrate (be : Backend) (db : DB) (tableName : String) (s : Schema) :
    Except SinkError (DB × Table) :=
  match getA db tableName with
  | some table =>
    if table.schema = s then .ok (db, table)
    else handle_schema_mismatch be db tableName table s
  | none => .error .unboundLocal

/-- `LanceDBSink.sink(documents)`.  An empty batch and a schema-synthesis
error both log and return normally (db unchanged); errors from the
open/migrate step and from the final `table.add` propagate. -/
def LanceDBSink.sink (be : Backend) (db : DB) (tableName : String)
    (documents : List Document) : Except SinkError DB :=
  if documents.isEmpty then .ok db
  else
    match create_dynamic_pydantic_model documents with
    | .error _ => .ok db
    | .ok pyarrow_schema =>
      match openOrMigrate be db tableName pyarrow_schema with
      | .error err => .error err
      | .ok (db1, table) =>
        let sources_to_delete := sourcesToDelete documents
        let table1 := afterDelete be sources_to_delete table
        let records := documents.map recordOf
        if records.isEmpty then .ok (setA db1 tableName table1)
        else
          match Table.addDF be table1 (mkDF records) with
          | .error err => .error err
          | .ok table2 => .ok (setA db1 tableName table2)

/-! ### ChromaDB sink (`ChromaDBSink.sink`) -/

/-- One stored ChromaDB record; the random `uuid4` id is not modelled (no
claim depends on it). -/
structure CEntry where
  content : String
  embedding : List Int
  metadata : List (String × Val)
deriving DecidableEq

structure Collection where
  entries : List CEntry
deriving DecidableEq

/-- `collection.delete(where=("source": ("$in": sources)))`. -/
def Collection.deleteBySources (c : Collection) (vs : List Val) : Collection :=
  ⟨c.entries.filter (fun e => !(vs.any (fun v => decide (getA e.metadata "source" = some v))))⟩

/-- `doc.metadata.get("embedding").tolist()` — `none` when the value is not an
ndarray (the call then raises `AttributeError`). -/
def embeddingList (d : Document) : Option (List Int) :=
  match getA d.metadata "embedding" with
  | some (.vvec v) => some v
  | _ => none

/-- The entry built for one document: content, embedding list, and
`clean_meta = doc.metadata.copy(); clean_meta.pop("embedding")`. -/
def entryOf (d : Document) : Option CEntry :=
  (embeddingList d).map (fun v => ⟨d.content, v, eraseA d.metadata "embedding"⟩)

/-- The `ids`/`documents`/`embeddings`/`metadatas` list comprehensions: they
fail with `AttributeError` on the first document whose `embedding` metadata
value is not an ndarray. -/
def entriesOf : List Document → Option (List CEntry)
  | [] => some []
  | d :: rest =>
    match entryOf d with
    | none => none
    | some e =>
      match entriesOf rest with
      | none => none
      | some es => some (e :: es)

/-- The guarded `collection.delete` block of `ChromaDBSink.sink`: skipped for
an empty source list, and a backend failure is logged and leaves the
collection as it was. -/
def chromaAfterDelete (be : Backend) (srcs : List Val) (c : Collection) :
    Collection :=
  if srcs.isEmpty then c
  else if be.deleteOk then c.deleteBySources srcs else c

/-- `ChromaDBSink.sink(documents)`.  Delete failures are logged and skipped;
the final `collection.add` is wrapped in `try/except` that only logs, so an
insert failure still returns normally. -/
def ChromaDBSink.sink (be : Backend) (collection : Collection)
    (documents : List Document) : Except SinkError Collection :=
  if documents.isEmpty then .ok collection
  else
    let collection1 := chromaAfterDelete be (sourcesToDelete documents) collection
    match entriesOf documents with
    | none => .error .attributeError
    | some entries =>
      if be.addOk then .ok ⟨collection1.entries ++ entries⟩
      else .ok collection1

/-! ### Fingerprint ledger (`yamlpipe/utils/state_manager.py`) -/

/-- The ledger: `processed_items` plus `last_run_timestamp`. -/
structure StateData where
  processed_items : List (String × String)
  last_run_timestamp : Option String
deriving DecidableEq

def emptyStateData : StateData := ⟨[], none⟩

/-- What reading the backing JSON file can yield. -/
inductive Backing where
  | missing
  | stored (data : StateData)
  | decodeError
  | ioError
deriving DecidableEq

/-- `JSONStateManager.load_state`: a missing file yields a fresh state, and
`json.JSONDecodeError` / `IOError` are caught, logged, and also yield a fresh
state. -/
def JSONStateManager.load_state : Backing → StateData
  | .missing => emptyStateData
  | .stored data => data
  | .decodeError => emptyStateData
  | .ioError => emptyStateData

/-- A raw Redis payload: what `json.loads` sees. -/
inductive Raw where
  | good (data : StateData)
  | corrupt
deriving DecidableEq

/-- Exceptions escaping the state loaders. -/
inductive PyErr where
  | jsonDecode
deriving DecidableEq

/-- `json.loads(existing_state)`. -/
def jsonLoads : Raw → Except PyErr StateData
  | .good data => .ok data
  | .corrupt => .error .jsonDecode

/-- A `redis.Redis.get` outcome: a Redis error, an absent key, or a payload. -/
inductive RedisErr where
  | connection
deriving DecidableEq

/-- `RedisStateManager.load_state`: only `redis.exceptions.RedisError` is
caught; `json.loads` of a stored payload runs inside the `try` but its
`JSONDecodeError` is not a `RedisError`, so it propagates. -/
def RedisStateManager.load_state (got : Except RedisErr (Option Raw)) :
    Except PyErr StateData :=
  match got with
  | .error _ => .ok emptyStateData
  | .ok none => .ok emptyStateData
  | .ok (some raw) => jsonLoads raw

/-- `StateManager.has_changed(item_id, new_hash)`.  The state is returned
unchanged alongside the result to express that the call is a pure read.
`fh` is the `get_file_hash` oracle used when no hash is supplied (`none`
models a hashing failure, which is treated as unchanged). -/
def StateManager.has_changed (fh : String → Option String) (st : StateData)
    (item_id : String) (new_hash : Option String) : Bool × StateData :=
  match new_hash with
  | none =>
    match fh item_id with
    | none => (false, st)
    | some current =>
      (decide (getA st.processed_items item_id ≠ some current), st)
  | some current =>
    (decide (getA st.processed_items item_id ≠ some current), st)

/-! ### Orchestrator commit step (`vectorflow/core/pipeline.py` lines 93-104;
`yamlpipe/core/pipeline.py` `_process_documents` lines 93-98 has the same
shape: `sink.sink(all_chunks)` first, state update and save strictly after). -/

/-- The vectorflow ledger (`processed_files` only). -/
structure VFState where
  processed_files : List (String × String)
deriving DecidableEq

/-- The in-memory ledger plus its persisted copy on disk. -/
structure World where
  mem : VFState
  disk : VFState
deriving DecidableEq

/-- `StateManager.update_state(file)`: hash the file and record the hash;
a failed hash (empty digest) records nothing. -/
def update_state (fh : String → String) (st : VFState) (file : String) : VFState :=
  let current_hash := fh file
  if current_hash ≠ "" then ⟨setA st.processed_files file current_hash⟩ else st

/-- `StateManager.save_state()`: write the ledger to disk; an `IOError` is
caught and logged, leaving the disk copy as it was. -/
def save_state (saveOk : Bool) (w : World) : World :=
  if saveOk then { w with disk := w.mem } else w

/-- Steps 8 of `run_pipeline`: for every processed document with a truthy
`source`, record its fingerprint, then persist the ledger. -/
def commit_state (fh : String → String) (saveOk : Bool)
    (documents : List Document) (w : World) : World :=
  save_state saveOk
    { w with
      mem := documents.foldl (fun st doc =>
        match getA doc.metadata "source" with
        | some (Val.vstr s) => if (Val.vstr s).truthy then update_state fh st s else st
        | _ => st) w.mem }

/-- Steps 7-8 of `run_pipeline`: call the sink, and only when it returns
without raising, update and save the state.  An exception from the sink
propagates out with the world untouched. -/
def run_pipeline_commit (sinkOutcome : Except SinkError Unit)
    (fh : String → String) (saveOk : Bool) (documents : List Document)
    (w : World) : World × Option SinkError :=
  match sinkOutcome with
  | .error err => (w, some err)
  | .ok _ => (commit_state fh saveOk documents w, none)

/-- The row that ends up stored for a document `d` of a batch: its record
dict, aligned first to the DataFrame's columns (`pd.DataFrame(records)`) and
then to the table schema's columns (the Arrow cast in `table.add`). -/
def storedRowOf (documents : List Document) (names : List String)
    (d : Document) : Rec :=
  alignRow names (alignRow (dfColumns (documents.map recordOf)) (recordOf d))

/-- The ChromaDB entry stored for a proper chunk (one whose `embedding`
metadata value is an ndarray): `entryOf` is `some` of this. -/
def entryD (d : Document) : CEntry :=
  ⟨d.content, (embeddingList d).getD [], eraseA d.metadata "embedding"⟩

/-! ### Lemmas about the dict model -/

theorem getA_setA_self {α : Type} (m : List (String × α)) (k : String) (v : α) :
    getA (setA m k v) k = some v := by
  induction m with
  | nil => simp [setA, getA]
  | cons p rest ih =>
    by_cases h : p.1 = k
    · simp [setA, getA, h]
    · simp [setA, getA, h, ih]

theorem getA_setA_ne {α : Type} (m : List (String × α)) (k k' : String) (v : α)
    (h : k' ≠ k) : getA (setA m k v) k' = getA m k' := by
  have h' : ¬ k = k' := fun hh => h hh.symm
  induction m with
  | nil => simp [setA, getA, h']
  | cons p rest ih =>
    by_cases hp : p.1 = k
    · have hp' : ¬ p.1 = k' := by rw [hp]; exact h'
      simp [setA, getA, hp, hp', h']
    · by_cases hp' : p.1 = k'
      · simp [setA, getA, hp, hp', h]
      · simp [setA, getA, hp, hp', ih]

theorem getA_eraseA_ne {α : Type} (m : List (String × α)) (k k' : String)
    (h : k' ≠ k) : getA (eraseA m k) k' = getA m k' := by
  have h' : ¬ k = k' := fun hh => h hh.symm
  induction m with
  | nil => simp [eraseA]
  | cons p rest ih =>
    by_cases hp : p.1 = k
    · have hp' : ¬ p.1 = k' := by rw [hp]; exact h'
      simp [eraseA, getA, hp, hp', h']
    · by_cases hp' : p.1 = k'
      · simp [eraseA, getA, hp, hp', h]
      · simp [eraseA, getA, hp, hp', ih]

theorem getA_append_of_some {α : Type} (a b : List (String × α)) (k : String)
    (v : α) (h : getA a k = some v) : getA (a ++ b) k = some v := by
  induction a with
  | nil => simp [getA] at h
  | cons p rest ih =>
    by_cases hp : p.1 = k
    · simp [getA, hp] at h ⊢; exact h
    · simp [getA, hp] at h ⊢; exact ih h

theorem getA_append_of_none {α : Type} (a b : List (String × α)) (k : String)
    (h : getA a k = none) : getA (a ++ b) k = getA b k := by
  induction a with
  | nil => simp
  | cons p rest ih =>
    by_cases hp : p.1 = k
    · simp [getA, hp] at h
    · simp [getA, hp] at h ⊢; exact ih h

theorem getA_eq_none_iff {α : Type} (m : List (String × α)) (k : String) :
    getA m k = none ↔ k ∉ m.map Prod.fst := by
  induction m with
  | nil => simp [getA]
  | cons p rest ih =>
    by_cases hp : p.1 = k
    · simp [getA, hp]
    · have hp' : ¬ k = p.1 := fun hh => hp hh.symm
      simp [getA, hp, ih, hp']

theorem mem_of_getA_eq_some {α : Type} (m : List (String × α)) (k : String)
    (v : α) (h : getA m k = some v) : (k, v) ∈ m := by
  induction m with
  | nil => simp [getA] at h
  | cons p rest ih =>
    by_cases hp : p.1 = k
    · simp [getA, hp] at h
      subst h
      exact List.mem_cons.mpr (Or.inl (by cases p; simp_all))
    · simp [getA, hp] at h
      exact List.mem_cons.mpr (Or.inr (ih h))

theorem keys_mem_of_getA_isSome {α : Type} (m : List (String × α)) (k : String)
    (h : (getA m k).isSome) : k ∈ m.map Prod.fst := by
  by_contra hk
  rw [← getA_eq_none_iff m k] at hk
  simp [hk] at h


/-! ### Lemmas about schema synthesis -/

theorem disc_foldl_preserve (l : List (String × Val))
    (acc : List (String × PyType)) (k : String) (t : PyType)
    (h : getA acc k = some t) : getA (l.foldl discStep acc) k = some t := by
  induction l generalizing acc with
  | nil => exact h
  | cons p rest ih =>
    rw [List.foldl_cons]
    apply ih
    unfold discStep
    split
    · exact getA_append_of_some _ _ _ _ h
    · exact h

theorem disc_foldl_preserve_isSome (l : List (String × Val))
    (acc : List (String × PyType)) (k : String)
    (h : (getA acc k).isSome) : (getA (l.foldl discStep acc) k).isSome := by
  obtain ⟨t, ht⟩ := Option.isSome_iff_exists.mp h
  rw [disc_foldl_preserve l acc k t ht]
  rfl

theorem disc_foldl_complete (l : List (String × Val))
    (acc : List (String × PyType)) (k : String) (v : Val)
    (hmem : (k, v) ∈ l) (hsupp : inTypeMap v.pyType = true) :
    (getA (l.foldl discStep acc) k).isSome := by
  induction l generalizing acc with
  | nil => cases hmem
  | cons p rest ih =>
    rw [List.foldl_cons]
    rcases List.mem_cons.mp hmem with he | hm
    · apply disc_foldl_preserve_isSome
      rw [← he]
      cases hacc : getA acc k with
      | none =>
        simp only [discStep, hacc, Option.isNone_none, hsupp, Bool.and_self,
          if_true, Bool.true_and]
        rw [getA_append_of_none _ _ _ hacc]
        simp [getA]
      | some t =>
        unfold discStep
        split
        · rw [getA_append_of_some _ _ _ _ hacc]; rfl
        · rw [hacc]; rfl
    · exact ih (discStep acc p) hm

theorem disc_foldl_sound (l : List (String × Val))
    (acc : List (String × PyType)) (k : String)
    (h : (getA (l.foldl discStep acc) k).isSome) :
    (getA acc k).isSome ∨ ∃ v, (k, v) ∈ l ∧ inTypeMap v.pyType = true := by
  induction l generalizing acc with
  | nil => exact Or.inl h
  | cons p rest ih =>
    obtain ⟨a, b⟩ := p
    rw [List.foldl_cons] at h
    rcases ih (discStep acc (a, b)) h with h' | ⟨v, hv, hs⟩
    · by_cases hc : ((getA acc a).isNone && inTypeMap b.pyType) = true
      · rw [show discStep acc (a, b) = acc ++ [(a, b.pyType)] from by
          unfold discStep; rw [if_pos hc]] at h'
        cases hacc : getA acc k with
        | some t => exact Or.inl (by simp [hacc])
        | none =>
          rw [getA_append_of_none _ _ _ hacc] at h'
          by_cases hk : a = k
          · subst hk
            exact Or.inr ⟨b, List.mem_cons_self _ _,
              ((Bool.and_eq_true _ _).mp hc).2⟩
          · simp [getA, hk] at h'
      · rw [show discStep acc (a, b) = acc from by
          unfold discStep; rw [if_neg hc]] at h'
        exact Or.inl h'
    · exact Or.inr ⟨v, List.mem_cons_of_mem _ hv, hs⟩

theorem disc_foldl_types (l : List (String × Val))
    (acc : List (String × PyType))
    (hacc : ∀ q ∈ acc, inTypeMap q.2 = true) :
    ∀ q ∈ l.foldl discStep acc, inTypeMap q.2 = true := by
  induction l generalizing acc with
  | nil => exact hacc
  | cons p rest ih =>
    rw [List.foldl_cons]
    apply ih
    intro q hq
    by_cases hc : ((getA acc p.1).isNone && inTypeMap p.2.pyType) = true
    · rw [show discStep acc p = acc ++ [(p.1, p.2.pyType)] from by
        unfold discStep; rw [if_pos hc]] at hq
      rcases List.mem_append.mp hq with h1 | h2
      · exact hacc q h1
      · have : q = (p.1, p.2.pyType) := by simpa using h2
        rw [this]
        exact ((Bool.and_eq_true _ _).mp hc).2
    · rw [show discStep acc p = acc from by
        unfold discStep; rw [if_neg hc]] at hq
      exact hacc q hq

theorem disc_docs_preserve_isSome (documents : List Document)
    (acc : List (String × PyType)) (k : String)
    (h : (getA acc k).isSome) :
    (getA (documents.foldl (fun a doc => doc.metadata.foldl discStep a) acc) k).isSome := by
  induction documents generalizing acc with
  | nil => exact h
  | cons d rest ih =>
    rw [List.foldl_cons]
    exact ih _ (disc_foldl_preserve_isSome _ _ _ h)

theorem disc_docs_complete (documents : List Document)
    (acc : List (String × PyType)) (d : Document) (k : String) (v : Val)
    (hd : d ∈ documents) (hm : (k, v) ∈ d.metadata)
    (hs : inTypeMap v.pyType = true) :
    (getA (documents.foldl (fun a doc => doc.metadata.foldl discStep a) acc) k).isSome := by
  induction documents generalizing acc with
  | nil => cases hd
  | cons d0 rest ih =>
    rw [List.foldl_cons]
    rcases List.mem_cons.mp hd with he | hmem
    · rw [he] at hm
      exact disc_docs_preserve_isSome rest _ k (disc_foldl_complete _ _ _ _ hm hs)
    · exact ih _ hmem

theorem discoverFields_complete (documents : List Document) (d : Document)
    (k : String) (v : Val) (hd : d ∈ documents) (hm : (k, v) ∈ d.metadata)
    (hs : inTypeMap v.pyType = true) :
    (getA (discoverFields documents) k).isSome :=
  disc_docs_complete documents [] d k v hd hm hs

theorem disc_docs_sound (documents : List Document)
    (acc : List (String × PyType)) (k : String)
    (h : (getA (documents.foldl (fun a doc => doc.metadata.foldl discStep a) acc) k).isSome) :
    (getA acc k).isSome ∨
      ∃ d ∈ documents, ∃ v, (k, v) ∈ d.metadata ∧ inTypeMap v.pyType = true := by
  induction documents generalizing acc with
  | nil => exact Or.inl h
  | cons d0 rest ih =>
    rw [List.foldl_cons] at h
    rcases ih _ h with h' | ⟨d, hd, v, hm, hs⟩
    · rcases disc_foldl_sound _ _ _ h' with h'' | ⟨v, hm, hs⟩
      · exact Or.inl h''
      · exact Or.inr ⟨d0, List.mem_cons_self _ _, v, hm, hs⟩
    · exact Or.inr ⟨d, List.mem_cons_of_mem _ hd, v, hm, hs⟩

theorem discoverFields_sound (documents : List Document) (k : String)
    (h : (getA (discoverFields documents) k).isSome) :
    ∃ d ∈ documents, ∃ v, (k, v) ∈ d.metadata ∧ inTypeMap v.pyType = true := by
  rcases disc_docs_sound documents [] k h with h' | h'
  · simp [getA] at h'
  · exact h'

theorem discoverFields_types (documents : List Document) :
    ∀ q ∈ discoverFields documents, inTypeMap q.2 = true := by
  unfold discoverFields
  generalize hacc : ([] : List (String × PyType)) = acc
  have hbase : ∀ q ∈ acc, inTypeMap q.2 = true := by rw [← hacc]; intro q hq; cases hq
  clear hacc
  induction documents generalizing acc with
  | nil => exact hbase
  | cons d0 rest ih =>
    rw [List.foldl_cons]
    exact ih _ (disc_foldl_types _ _ hbase)


theorem addFields_ok (l : List (String × PyType)) (pf : Schema)
    (h : ∀ q ∈ l, inTypeMap q.2 = true) :
    ∃ s, addFields pf l = .ok s ∧
      ∀ k, k ∉ l.map Prod.fst → getA s k = getA pf k := by
  induction l generalizing pf with
  | nil => exact ⟨pf, rfl, fun k _ => rfl⟩
  | cons q rest ih =>
    obtain ⟨a, t⟩ := q
    by_cases ha : a = "embedding"
    · obtain ⟨s, hs, hpres⟩ := ih pf (fun q hq => h q (List.mem_cons_of_mem _ hq))
      refine ⟨s, by simp [addFields, ha, hs], fun k hk => ?_⟩
      exact hpres k (fun hmem => hk (by simp [hmem]))
    · have hsupp : inTypeMap t = true := h (a, t) (List.mem_cons_self _ _)
      obtain ⟨ft, hft⟩ := Option.isSome_iff_exists.mp hsupp
      obtain ⟨s, hs, hpres⟩ :=
        ih (setA pf a ft) (fun q hq => h q (List.mem_cons_of_mem _ hq))
      refine ⟨s, by simp [addFields, ha, hft, hs], fun k hk => ?_⟩
      have hka : k ≠ a := fun he => hk (by simp [he])
      have hkr : k ∉ rest.map Prod.fst := fun hmem => hk (by simp [hmem])
      rw [hpres k hkr, getA_setA_ne _ _ _ _ hka]

theorem addFields_isSome (l : List (String × PyType)) (pf : Schema)
    (s : Schema) (h : addFields pf l = .ok s) (k : String)
    (hk : (getA pf k).isSome) : (getA s k).isSome := by
  induction l generalizing pf with
  | nil =>
    have hpf : pf = s := by simpa [addFields] using h
    rw [← hpf]; exact hk
  | cons q rest ih =>
    obtain ⟨a, t⟩ := q
    by_cases ha : a = "embedding"
    · simp only [addFields, ha, if_true] at h
      exact ih pf h hk
    · cases hft : TYPE_MAP t with
      | none => simp [addFields, ha, hft] at h
      | some ft =>
        simp only [addFields, if_neg ha, hft] at h
        apply ih (setA pf a ft) h
        by_cases hka : k = a
        · rw [hka, getA_setA_self]; rfl
        · rw [getA_setA_ne _ _ _ _ hka]; exact hk

theorem addFields_mem (l : List (String × PyType)) (pf : Schema) (s : Schema)
    (h : addFields pf l = .ok s) (k : String) (t : PyType)
    (hm : (k, t) ∈ l) (hk : k ≠ "embedding") : (getA s k).isSome := by
  induction l generalizing pf with
  | nil => cases hm
  | cons q rest ih =>
    obtain ⟨a, u⟩ := q
    rcases List.mem_cons.mp hm with he | hmem
    · have hak : a = k := (congrArg Prod.fst he).symm
      rw [hak] at h
      cases hft : TYPE_MAP u with
      | none => simp [addFields, hk, hft] at h
      | some ft =>
        simp only [addFields, if_neg hk, hft] at h
        exact addFields_isSome rest _ s h k (by rw [getA_setA_self]; rfl)
    · by_cases ha : a = "embedding"
      · simp only [addFields, ha, if_true] at h
        exact ih pf h hmem
      · cases hft : TYPE_MAP u with
        | none => simp [addFields, ha, hft] at h
        | some ft =>
          simp only [addFields, if_neg ha, hft] at h
          exact ih (setA pf a ft) h hmem

theorem create_ok_inv (documents : List Document) (s : Schema)
    (h : create_dynamic_pydantic_model documents = .ok s) :
    ∃ first rest e, documents = first :: rest ∧
      getA first.metadata "embedding" = some (.vvec e) ∧
      addFields (setA [("text", FieldType.fstr)] "vector" (.fvector e.length))
        (discoverFields documents) = .ok s := by
  cases documents with
  | nil => simp [create_dynamic_pydantic_model] at h
  | cons first rest =>
    cases hemb : getA first.metadata "embedding" with
    | none => simp [create_dynamic_pydantic_model, hemb] at h
    | some v =>
      cases v with
      | vvec e =>
        refine ⟨first, rest, e, rfl, hemb, ?_⟩
        simpa [create_dynamic_pydantic_model, hemb] using h
      | vstr a => simp [create_dynamic_pydantic_model, hemb] at h
      | vint a => simp [create_dynamic_pydantic_model, hemb] at h
      | vfloat a => simp [create_dynamic_pydantic_model, hemb] at h
      | vlist a => simp [create_dynamic_pydantic_model, hemb] at h
      | vtimestamp a => simp [create_dynamic_pydantic_model, hemb] at h
      | vother a => simp [create_dynamic_pydantic_model, hemb] at h

theorem create_ok_of_embedding (first : Document) (rest : List Document)
    (e : List Int) (hemb : getA first.metadata "embedding" = some (.vvec e)) :
    ∃ s, create_dynamic_pydantic_model (first :: rest) = .ok s := by
  obtain ⟨s, hs, _⟩ :=
    addFields_ok (discoverFields (first :: rest))
      (setA [("text", FieldType.fstr)] "vector" (.fvector e.length))
      (discoverFields_types (first :: rest))
  exact ⟨s, by simp [create_dynamic_pydantic_model, hemb, hs]⟩

theorem create_source_in_schema (documents : List Document) (s : Schema)
    (d : Document) (w : Val)
    (hsynth : create_dynamic_pydantic_model documents = .ok s)
    (hd : d ∈ documents)
    (hsome : getA d.metadata "source" = some w)
    (hsupp : inTypeMap w.pyType = true) :
    "source" ∈ schemaNames s := by
  obtain ⟨first, rest, e, hdocs, hemb, hadd⟩ := create_ok_inv documents s hsynth
  have hm : ("source", w) ∈ d.metadata := mem_of_getA_eq_some _ _ _ hsome
  have hdisc : (getA (discoverFields documents) "source").isSome :=
    discoverFields_complete documents d "source" w hd hm hsupp
  obtain ⟨T, hT⟩ := Option.isSome_iff_exists.mp hdisc
  have hmem : ("source", T) ∈ discoverFields documents :=
    mem_of_getA_eq_some _ _ _ hT
  have hss : (getA s "source").isSome :=
    addFields_mem _ _ _ hadd _ _ hmem (by decide)
  exact keys_mem_of_getA_isSome _ _ hss

/-! ### Lemmas about the sink embedding -/

theorem afterDelete_schema (be : Backend) (srcs : List Val) (t : Table) :
    (afterDelete be srcs t).schema = t.schema := by
  unfold afterDelete Table.deleteBySources
  split
  · rfl
  · split <;> rfl

theorem afterDelete_deleteFail (srcs : List Val) (t : Table) (b : Bool) :
    afterDelete ⟨false, b⟩ srcs t = t := by
  unfold afterDelete
  split <;> rfl

theorem afterDelete_nil (be : Backend) (t : Table) : afterDelete be [] t = t := rfl

theorem afterDelete_rows_del (be : Backend) (srcs : List Val) (t : Table)
    (hdel : be.deleteOk = true) (hne : srcs ≠ []) :
    (afterDelete be srcs t).rows =
      t.rows.filter
        (fun r => !(srcs.any (fun v => decide (getCell r "source" = some v)))) := by
  have hie : srcs.isEmpty = false := by
    cases srcs with
    | nil => exact absurd rfl hne
    | cons a l => rfl
  unfold afterDelete
  rw [hie, hdel]
  rfl

theorem chromaAfterDelete_deleteFail (srcs : List Val) (c : Collection) (b : Bool) :
    chromaAfterDelete ⟨false, b⟩ srcs c = c := by
  unfold chromaAfterDelete
  split <;> rfl

theorem chromaAfterDelete_entries_del (be : Backend) (srcs : List Val)
    (c : Collection) (hdel : be.deleteOk = true) (hne : srcs ≠ []) :
    (chromaAfterDelete be srcs c).entries =
      c.entries.filter
        (fun en => !(srcs.any (fun v => decide (getA en.metadata "source" = some v)))) := by
  have hie : srcs.isEmpty = false := by
    cases srcs with
    | nil => exact absurd rfl hne
    | cons a l => rfl
  unfold chromaAfterDelete
  rw [hie, hdel]
  rfl

theorem addDF_ok_spec (be : Backend) (t : Table) (df : DF) (t' : Table)
    (h : Table.addDF be t df = .ok t') :
    be.addOk = true ∧
      t' = ⟨t.schema, t.rows ++ df.rows.map (alignRow (schemaNames t.schema))⟩ := by
  unfold Table.addDF at h
  split at h
  · cases hadd : be.addOk with
    | true => rw [hadd] at h; simp at h; exact ⟨rfl, h.symm⟩
    | false => rw [hadd] at h; cases h
  · cases h

theorem addDF_addFail (be : Backend) (t : Table) (df : DF)
    (h : be.addOk = false) : ∃ e, Table.addDF be t df = .error e := by
  unfold Table.addDF
  split
  · rw [h]
    exact ⟨.backendAdd, rfl⟩
  · exact ⟨.columnMismatch, rfl⟩

theorem hsm_ok_schema (be : Backend) (db : DB) (tn : String) (table : Table)
    (s : Schema) (db' : DB) (tb : Table)
    (h : handle_schema_mismatch be db tn table s = .ok (db', tb)) :
    tb.schema = s := by
  simp only [handle_schema_mismatch] at h
  split at h
  · cases h
  · split at h
    · cases h
    · rename_i new_table heq2
      simp only [Except.ok.injEq, Prod.mk.injEq] at h
      rw [← h.2]
      split at heq2
      · rw [← Except.ok.inj heq2]
      · rw [(addDF_ok_spec _ _ _ _ heq2).2]

theorem oom_ok_spec (be : Backend) (db : DB) (tn : String) (s : Schema)
    (db1 : DB) (table : Table)
    (h : openOrMigrate be db tn s = .ok (db1, table)) :
    table.schema = s ∧
      (∀ t0, getA db tn = some t0 → t0.schema = s → db1 = db ∧ table = t0) := by
  unfold openOrMigrate at h
  split at h
  · rename_i t0 heq
    split at h
    · rename_i hsch
      simp only [Except.ok.injEq, Prod.mk.injEq] at h
      refine ⟨h.2 ▸ hsch, fun t0' ht0' _ => ?_⟩
      have he : t0 = t0' := Option.some.inj (heq.symm.trans ht0')
      exact ⟨h.1.symm, h.2.symm.trans he⟩
    · rename_i hsch
      refine ⟨hsm_ok_schema _ _ _ _ _ _ _ h, fun t0' ht0' hs' => ?_⟩
      have he : t0 = t0' := Option.some.inj (heq.symm.trans ht0')
      exact absurd (he ▸ hs') hsch
  · cases h

/-! ### Lemmas about record construction and alignment -/

theorem foldl_setA_untouched (ps : List (String × Val)) (init : Rec) (k : String)
    (h : k ∉ ps.map Prod.fst) :
    getA (ps.foldl (fun r p => setA r p.1 (some p.2)) init) k = getA init k := by
  induction ps generalizing init with
  | nil => rfl
  | cons p rest ih =>
    rw [List.foldl_cons]
    have hk : k ∉ rest.map Prod.fst := fun hm => h (by simp [hm])
    have hkp : k ≠ p.1 := fun he => h (by simp [he])
    rw [ih _ hk, getA_setA_ne _ _ _ _ hkp]

theorem foldl_setA_get (ps : List (String × Val)) (init : Rec) (k : String)
    (v : Val) (hnd : (ps.map Prod.fst).Nodup) (h : getA ps k = some v) :
    getA (ps.foldl (fun r p => setA r p.1 (some p.2)) init) k = some (some v) := by
  induction ps generalizing init with
  | nil => cases h
  | cons p rest ih =>
    rw [List.foldl_cons]
    by_cases hp : p.1 = k
    · have hv : v = p.2 := by
        have : getA (p :: rest) k = some p.2 := by simp [getA, hp]
        rw [this] at h
        exact (Option.some.inj h).symm
      have hkr : k ∉ rest.map Prod.fst := by
        rw [← hp]
        simp only [List.map_cons, List.nodup_cons] at hnd
        exact hnd.1
      rw [foldl_setA_untouched _ _ _ hkr, hp, getA_setA_self, hv]
    · have h' : getA rest k = some v := by
        simpa [getA, hp] using h
      simp only [List.map_cons, List.nodup_cons] at hnd
      exact ih _ hnd.2 h'

theorem foldl_setA_isSome (ps : List (String × Val)) (init : Rec) (k : String)
    (hmem : k ∈ ps.map Prod.fst) :
    (getA (ps.foldl (fun r p => setA r p.1 (some p.2)) init) k).isSome := by
  induction ps generalizing init with
  | nil => cases hmem
  | cons p rest ih =>
    rw [List.foldl_cons]
    by_cases hr : k ∈ rest.map Prod.fst
    · exact ih _ hr
    · have hkp : k = p.1 := by
        simp only [List.map_cons, List.mem_cons] at hmem
        exact hmem.resolve_right hr
      rw [foldl_setA_untouched _ _ _ hr, hkp, getA_setA_self]
      rfl

theorem getA_filter_ne_embedding (m : List (String × Val)) (k : String)
    (hk : k ≠ "embedding") :
    getA (m.filter (fun p => p.1 ≠ "embedding")) k = getA m k := by
  induction m with
  | nil => rfl
  | cons p rest ih =>
    rw [List.filter_cons]
    split
    · by_cases hpk : p.1 = k
      · simp [getA, hpk]
      · rw [show getA (p :: rest) k = getA rest k from by simp [getA, hpk]]
        rw [show getA (p :: rest.filter (fun p => p.1 ≠ "embedding")) k =
          getA (rest.filter (fun p => p.1 ≠ "embedding")) k from by
            simp [getA, hpk]]
        exact ih
    · rename_i hcond
      have hp : p.1 = "embedding" := by
        by_contra hne
        exact hcond (by simp [hne])
      have hpk : ¬ p.1 = k := by rw [hp]; exact fun he => hk he.symm
      rw [show getA (p :: rest) k = getA rest k from by simp [getA, hpk]]
      exact ih

theorem recordOf_source (d : Document) (hmd : mdNodup d) :
    getCell (recordOf d) "source" = getA d.metadata "source" := by
  simp only [recordOf, getCell]
  have hnd' : ((d.metadata.filter (fun p => p.1 ≠ "embedding")).map Prod.fst).Nodup :=
    ((List.filter_sublist d.metadata).map Prod.fst).nodup hmd
  cases hsome : getA d.metadata "source" with
  | some w =>
    have h1 : getA (d.metadata.filter (fun p => p.1 ≠ "embedding")) "source" = some w := by
      rw [getA_filter_ne_embedding _ _ (by decide), hsome]
    rw [foldl_setA_get _ _ _ _ hnd' h1]
    rfl
  | none =>
    have h1 : getA (d.metadata.filter (fun p => p.1 ≠ "embedding")) "source" = none := by
      rw [getA_filter_ne_embedding _ _ (by decide), hsome]
    have h2 : "source" ∉ (d.metadata.filter (fun p => p.1 ≠ "embedding")).map Prod.fst :=
      (getA_eq_none_iff _ _).mp h1
    rw [foldl_setA_untouched _ _ _ h2]
    rfl

theorem recordOf_key_mem (d : Document) (k : String) (v : Val)
    (h : getA d.metadata k = some v) (hk : k ≠ "embedding") :
    k ∈ (recordOf d).map Prod.fst := by
  unfold recordOf
  apply keys_mem_of_getA_isSome
  apply foldl_setA_isSome
  have h1 : getA (d.metadata.filter (fun p => p.1 ≠ "embedding")) k = some v := by
    rw [getA_filter_ne_embedding _ _ hk, h]
  exact keys_mem_of_getA_isSome _ _ (by rw [h1]; rfl)

theorem dfcols_inner_mono (r : Rec) (acc : List String) (k : String)
    (h : k ∈ acc) :
    k ∈ r.foldl (fun a p => if p.1 ∈ a then a else a ++ [p.1]) acc := by
  induction r generalizing acc with
  | nil => exact h
  | cons p rest ih =>
    rw [List.foldl_cons]
    apply ih
    split
    · exact h
    · exact List.mem_append_left _ h

theorem dfcols_inner_complete (r : Rec) (acc : List String) (k : String)
    (h : k ∈ r.map Prod.fst) :
    k ∈ r.foldl (fun a p => if p.1 ∈ a then a else a ++ [p.1]) acc := by
  induction r generalizing acc with
  | nil => cases h
  | cons p rest ih =>
    rw [List.foldl_cons]
    by_cases hm : k ∈ rest.map Prod.fst
    · exact ih _ hm
    · have he : k = p.1 := by
        simp only [List.map_cons, List.mem_cons] at h
        exact h.resolve_right hm
      apply dfcols_inner_mono
      rw [he]
      split
      · assumption
      · exact List.mem_append_right _ (List.mem_singleton.mpr rfl)

theorem dfcols_outer_mono (recs : List Rec) (acc : List String) (k : String)
    (h : k ∈ acc) :
    k ∈ recs.foldl
      (fun acc r => r.foldl (fun a p => if p.1 ∈ a then a else a ++ [p.1]) acc)
      acc := by
  induction recs generalizing acc with
  | nil => exact h
  | cons r rest ih =>
    rw [List.foldl_cons]
    exact ih _ (dfcols_inner_mono _ _ _ h)

theorem dfcols_outer_complete (recs : List Rec) (acc : List String) (r : Rec)
    (k : String) (hr : r ∈ recs) (hk : k ∈ r.map Prod.fst) :
    k ∈ recs.foldl
      (fun acc r => r.foldl (fun a p => if p.1 ∈ a then a else a ++ [p.1]) acc)
      acc := by
  induction recs generalizing acc with
  | nil => cases hr
  | cons r0 rest ih =>
    rw [List.foldl_cons]
    rcases List.mem_cons.mp hr with he | hm
    · exact dfcols_outer_mono _ _ _ (dfcols_inner_complete _ _ _ (he ▸ hk))
    · exact ih _ hm

theorem dfColumns_mem (recs : List Rec) (r : Rec) (k : String)
    (hr : r ∈ recs) (hk : k ∈ r.map Prod.fst) : k ∈ dfColumns recs := by
  unfold dfColumns
  exact dfcols_outer_complete recs [] r k hr hk

theorem getA_alignRow (cols : List String) (r : Rec) (k : String) :
    getA (alignRow cols r) k = if k ∈ cols then some (getCell r k) else none := by
  induction cols with
  | nil => simp [alignRow, getA]
  | cons c cs ih =>
    by_cases hc : c = k
    · simp [alignRow, getA, hc]
    · have hkc : k = c ↔ False := ⟨fun he => hc he.symm, False.elim⟩
      simp only [alignRow, List.map_cons, getA, hc, if_false]
      rw [show (cs.map fun c => (c, getCell r c)) = alignRow cs r from rfl, ih]
      simp [List.mem_cons, hkc]


theorem getCell_alignRow (cols : List String) (r : Rec) (k : String) :
    getCell (alignRow cols r) k = if k ∈ cols then getCell r k else none := by
  rw [getCell, getA_alignRow]
  split
  · rfl
  · rfl

theorem hasVec_exists (d : Document) (h : hasVecEmbedding d = true) :
    ∃ e, getA d.metadata "embedding" = some (.vvec e) := by
  unfold hasVecEmbedding at h
  cases hg : getA d.metadata "embedding" with
  | none => rw [hg] at h; cases h
  | some v =>
    cases v with
    | vvec e => exact ⟨e, rfl⟩
    | vstr a => rw [hg] at h; cases h
    | vint a => rw [hg] at h; cases h
    | vfloat a => rw [hg] at h; cases h
    | vlist a => rw [hg] at h; cases h
    | vtimestamp a => rw [hg] at h; cases h
    | vother a => rw [hg] at h; cases h

theorem storedRowOf_source (documents : List Document) (names : List String)
    (d : Document) (hd : d ∈ documents) (hmd : mdNodup d)
    (hnames : ∀ w, getA d.metadata "source" = some w → "source" ∈ names) :
    getCell (storedRowOf documents names d) "source" =
      getA d.metadata "source" := by
  unfold storedRowOf
  rw [getCell_alignRow]
  cases hsome : getA d.metadata "source" with
  | some w =>
    rw [if_pos (hnames w hsome), getCell_alignRow]
    have hdf : "source" ∈ dfColumns (documents.map recordOf) :=
      dfColumns_mem _ (recordOf d) _ (List.mem_map_of_mem recordOf hd)
        (recordOf_key_mem d _ w hsome (by decide))
    rw [if_pos hdf, recordOf_source d hmd, hsome]
  | none =>
    by_cases h1 : "source" ∈ names
    · rw [if_pos h1, getCell_alignRow]
      by_cases h2 : "source" ∈ dfColumns (documents.map recordOf)
      · rw [if_pos h2, recordOf_source d hmd, hsome]
      · rw [if_neg h2]
    · rw [if_neg h1]

theorem filter_map_eq {α β : Type} (f : α → β) (p : β → Bool) (l : List α) :
    (l.map f).filter p = (l.filter (fun a => p (f a))).map f := by
  induction l with
  | nil => rfl
  | cons a rest ih =>
    rw [List.map_cons, List.filter_cons, List.filter_cons]
    cases hp : p (f a) with
    | true => simp [ih]
    | false => simp [ih]

theorem filter_congr_mem {α : Type} (p q : α → Bool) (l : List α)
    (h : ∀ a ∈ l, p a = q a) : l.filter p = l.filter q := by
  induction l with
  | nil => rfl
  | cons a rest ih =>
    rw [List.filter_cons, List.filter_cons, h a (List.mem_cons_self _ _),
      ih (fun b hb => h b (List.mem_cons_of_mem _ hb))]

theorem filter_nil_of_not {α : Type} (p : α → Bool) (l : List α)
    (h : ∀ a ∈ l, p a = false) : l.filter p = [] := by
  induction l with
  | nil => rfl
  | cons a rest ih =>
    rw [List.filter_cons, h a (List.mem_cons_self _ _)]
    exact ih (fun b hb => h b (List.mem_cons_of_mem _ hb))

theorem sourcesToDelete_sound (documents : List Document) (v : Val)
    (h : v ∈ sourcesToDelete documents) :
    v.truthy = true ∧ ∃ d ∈ documents, getA d.metadata "source" = some v := by
  unfold sourcesToDelete at h
  suffices haux : ∀ (acc : List Val), v ∈ documents.foldl
      (fun acc doc =>
        match getA doc.metadata "source" with
        | some w => if w.truthy then (if w ∈ acc then acc else acc ++ [w]) else acc
        | none => acc) acc →
      v ∈ acc ∨ (v.truthy = true ∧ ∃ d ∈ documents, getA d.metadata "source" = some v) by
    rcases haux [] h with h0 | h0
    · cases h0
    · exact h0
  clear h
  induction documents with
  | nil => exact fun acc h => Or.inl h
  | cons d0 rest ih =>
    intro acc h
    rw [List.foldl_cons] at h
    rcases ih _ h with h' | ⟨ht, d, hd, hg⟩
    · cases hg0 : getA d0.metadata "source" with
      | none =>
        rw [hg0] at h'
        exact Or.inl h'
      | some w =>
        rw [hg0] at h'
        have h'' : v ∈ (if w.truthy then (if w ∈ acc then acc else acc ++ [w])
            else acc) := h'
        by_cases hw : w.truthy = true
        · rw [if_pos hw] at h''
          by_cases hin : w ∈ acc
          · rw [if_pos hin] at h''
            exact Or.inl h''
          · rw [if_neg hin] at h''
            rcases List.mem_append.mp h'' with ha | hb
            · exact Or.inl ha
            · have hvw : v = w := List.mem_singleton.mp hb
              exact Or.inr ⟨hvw ▸ hw, d0, List.mem_cons_self _ _, hvw ▸ hg0⟩
        · rw [if_neg hw] at h''
          exact Or.inl h''
    · exact Or.inr ⟨ht, d, List.mem_cons_of_mem _ hd, hg⟩

theorem sourcesToDelete_nil (documents : List Document)
    (h : ∀ d ∈ documents, ∀ w, getA d.metadata "source" = some w →
      w.truthy = false) : sourcesToDelete documents = [] := by
  unfold sourcesToDelete
  suffices haux : ∀ (acc : List Val), (∀ d ∈ documents, ∀ w,
      getA d.metadata "source" = some w → w.truthy = false) →
      documents.foldl
        (fun acc doc =>
          match getA doc.metadata "source" with
          | some w => if w.truthy then (if w ∈ acc then acc else acc ++ [w]) else acc
          | none => acc) acc = acc from haux [] h
  clear h
  induction documents with
  | nil => exact fun acc _ => rfl
  | cons d0 rest ih =>
    intro acc hall
    rw [List.foldl_cons]
    have hstep :
        (match getA d0.metadata "source" with
          | some w => if w.truthy then (if w ∈ acc then acc else acc ++ [w]) else acc
          | none => acc) = acc := by
      cases hg : getA d0.metadata "source" with
      | none => rfl
      | some w =>
        show (if w.truthy then (if w ∈ acc then acc else acc ++ [w]) else acc) = acc
        rw [hall d0 (List.mem_cons_self _ _) w hg]
        rfl
    rw [hstep]
    exact ih acc (fun d hd => hall d (List.mem_cons_of_mem _ hd))

theorem entriesOf_eq (documents : List Document)
    (h : ∀ d ∈ documents, hasVecEmbedding d = true) :
    entriesOf documents = some (documents.map entryD) := by
  induction documents with
  | nil => rfl
  | cons d rest ih =>
    obtain ⟨e, he⟩ := hasVec_exists d (h d (List.mem_cons_self _ _))
    have hent : entryOf d = some (entryD d) := by
      unfold entryOf entryD embeddingList
      rw [he]
      rfl
    rw [List.map_cons, show entriesOf (d :: rest) =
      (match entryOf d with
        | none => none
        | some e =>
          match entriesOf rest with
          | none => none
          | some es => some (e :: es)) from rfl,
      hent, ih (fun d' hd' => h d' (List.mem_cons_of_mem _ hd'))]

/-! ### Success-path specifications of the two sinks -/

theorem lance_sink_ok_spec (be : Backend) (db : DB) (tn : String)
    (documents : List Document) (db' : DB) (s : Schema)
    (hne : documents ≠ [])
    (hsynth : create_dynamic_pydantic_model documents = .ok s)
    (hok : LanceDBSink.sink be db tn documents = .ok db') :
    be.addOk = true ∧
      ∃ tMid db1, tMid.schema = s ∧
        (∀ t0, getA db tn = some t0 → t0.schema = s → db1 = db ∧ tMid = t0) ∧
        db' = setA db1 tn
          ⟨s, (afterDelete be (sourcesToDelete documents) tMid).rows ++
            documents.map (storedRowOf documents (schemaNames s))⟩ := by
  have hie : documents.isEmpty = false := by
    cases documents with
    | nil => exact absurd rfl hne
    | cons a l => rfl
  unfold LanceDBSink.sink at hok
  rw [hie] at hok
  simp only [Bool.false_eq_true, if_false] at hok
  split at hok
  · rename_i a heq
    rw [hsynth] at heq
    cases heq
  · rename_i pyarrow_schema heq
    rw [hsynth] at heq
    have hps : s = pyarrow_schema := Except.ok.inj heq
    subst hps
    split at hok
    · cases hok
    · rename_i db1 table heq2
      have hrie : (documents.map recordOf).isEmpty = false := by
        cases documents with
        | nil => exact absurd rfl hne
        | cons a l => rfl
      rw [hrie] at hok
      simp only [Bool.false_eq_true, if_false] at hok
      split at hok
      · cases hok
      · rename_i table2 heq3
        obtain ⟨haddOk, htable2⟩ := addDF_ok_spec _ _ _ _ heq3
        obtain ⟨hsch, hmatch⟩ := oom_ok_spec _ _ _ _ _ _ heq2
        have hschAD : (afterDelete be (sourcesToDelete documents) table).schema = s := by
          rw [afterDelete_schema, hsch]
        refine ⟨haddOk, table, db1, hsch, hmatch, ?_⟩
        have hdb' : db' = setA db1 tn table2 := (Except.ok.inj hok).symm
        rw [hdb', htable2, hschAD]
        have hrows : (mkDF (documents.map recordOf)).rows.map (alignRow (schemaNames s)) =
            documents.map (storedRowOf documents (schemaNames s)) := by
          show ((documents.map recordOf).map
            (alignRow (dfColumns (documents.map recordOf)))).map
              (alignRow (schemaNames s)) =
            documents.map (storedRowOf documents (schemaNames s))
          rw [List.map_map, List.map_map]
          rfl
        rw [hrows]

theorem chroma_sink_ok_spec (be : Backend) (col : Collection)
    (documents : List Document) (col' : Collection)
    (hne : documents ≠ [])
    (hprop : ∀ d ∈ documents, hasVecEmbedding d = true)
    (haddOk : be.addOk = true)
    (hok : ChromaDBSink.sink be col documents = .ok col') :
    col' = ⟨(chromaAfterDelete be (sourcesToDelete documents) col).entries ++
      documents.map entryD⟩ := by
  have hie : documents.isEmpty = false := by
    cases documents with
    | nil => exact absurd rfl hne
    | cons a l => rfl
  unfold ChromaDBSink.sink at hok
  rw [hie] at hok
  simp only [Bool.false_eq_true, if_false] at hok
  split at hok
  · rename_i heq
    rw [entriesOf_eq documents hprop] at heq
    cases heq
  · rename_i entries heq
    rw [entriesOf_eq documents hprop] at heq
    have hent : documents.map entryD = entries := Option.some.inj heq
    rw [haddOk] at hok
    simp only [if_true] at hok
    rw [← hent] at hok
    exact (Except.ok.inj hok).symm

/-- Unfolding equation for `LanceDBSink.sink` on a non-empty batch whose
schema synthesis succeeds. -/
theorem lance_sink_eq (be : Backend) (db : DB) (tn : String)
    (documents : List Document) (s : Schema)
    (hne : documents ≠ [])
    (hsynth : create_dynamic_pydantic_model documents = .ok s) :
    LanceDBSink.sink be db tn documents =
      match openOrMigrate be db tn s with
      | .error err => .error err
      | .ok (db1, table) =>
        match Table.addDF be (afterDelete be (sourcesToDelete documents) table)
            (mkDF (documents.map recordOf)) with
        | .error err => .error err
        | .ok table2 => .ok (setA db1 tn table2) := by
  have hie : documents.isEmpty = false := by
    cases documents with
    | nil => exact absurd rfl hne
    | cons a l => rfl
  have hrie : (documents.map recordOf).isEmpty = false := by
    cases documents with
    | nil => exact absurd rfl hne
    | cons a l => rfl
  unfold LanceDBSink.sink
  rw [hie]
  simp only [Bool.false_eq_true, if_false]
  rw [hsynth]
  show (match openOrMigrate be db tn s with
    | Except.error err => (Except.error err : Except SinkError DB)
    | Except.ok (db1, table) =>
      if (documents.map recordOf).isEmpty = true then
        Except.ok (setA db1 tn (afterDelete be (sourcesToDelete documents) table))
      else
        match Table.addDF be (afterDelete be (sourcesToDelete documents) table)
            (mkDF (documents.map recordOf)) with
        | Except.error err => Except.error err
        | Except.ok table2 => Except.ok (setA db1 tn table2)) =
    match openOrMigrate be db tn s with
    | Except.error err => Except.error err
    | Except.ok (db1, table) =>
      match Table.addDF be (afterDelete be (sourcesToDelete documents) table)
          (mkDF (documents.map recordOf)) with
      | Except.error err => Except.error err
      | Except.ok table2 => Except.ok (setA db1 tn table2)
  cases hoom : openOrMigrate be db tn s with
  | error err => rfl
  | ok pair =>
    obtain ⟨db1, table⟩ := pair
    show (if (documents.map recordOf).isEmpty = true then _ else _) = _
    rw [hrie]
    simp only [Bool.false_eq_true, if_false]

/-- The success path of `LanceDBSink.sink` on a batch with no truthy `source`
value: nothing is deleted and the batch is appended to the existing rows. -/
theorem lance_sink_sourceless (be : Backend) (db : DB) (tn : String)
    (documents : List Document) (db' : DB) (s : Schema) (t0 : Table)
    (hne : documents ≠ [])
    (hall : ∀ d ∈ documents, ∀ w, getA d.metadata "source" = some w →
      w.truthy = false)
    (hsynth : create_dynamic_pydantic_model documents = .ok s)
    (ht0 : getA db tn = some t0) (hsch : t0.schema = s)
    (hok : LanceDBSink.sink be db tn documents = .ok db') :
    db' = setA db tn
        ⟨s, t0.rows ++ documents.map (storedRowOf documents (schemaNames s))⟩ ∧
      getA db' tn = some
        ⟨s, t0.rows ++ documents.map (storedRowOf documents (schemaNames s))⟩ := by
  obtain ⟨haddOk, tMid, db1, hschMid, hmatch, hdb'⟩ :=
    lance_sink_ok_spec be db tn documents db' s hne hsynth hok
  obtain ⟨hdb1, htMid⟩ := hmatch t0 ht0 hsch
  have hsrcs : sourcesToDelete documents = [] := sourcesToDelete_nil documents hall
  rw [hsrcs, afterDelete_nil, htMid, hdb1] at hdb'
  exact ⟨hdb', by rw [hdb', getA_setA_self]⟩

/-! ### Claims about the sink upsert protocol -/

/-- C1: for a non-empty batch of proper chunks (unique metadata keys, ndarray
embeddings, string origins), when the backend operations succeed and the
upsert returns successfully, the sink holds, for every origin present in the
batch, exactly the batch's chunks of that origin (in batch order, built by
the record pipeline) and no previously stored record of that origin — for
both the LanceDB and the ChromaDB sink. -/
theorem upsert_exact_per_origin (be : Backend) (documents : List Document)
    (hdel : be.deleteOk = true) (haddOk : be.addOk = true)
    (hne : documents ≠ [])
    (hmd : ∀ d ∈ documents, mdNodup d)
    (hvec : ∀ d ∈ documents, hasVecEmbedding d = true)
    (hsrc : ∀ d ∈ documents, ∀ w, getA d.metadata "source" = some w →
      ∃ a, w = Val.vstr a) :
    (∀ db tn db', LanceDBSink.sink be db tn documents = .ok db' →
      ∃ s t', create_dynamic_pydantic_model documents = .ok s ∧
        getA db' tn = some t' ∧ t'.schema = s ∧
        ∀ v ∈ sourcesToDelete documents,
          t'.rows.filter (fun r => decide (getCell r "source" = some v)) =
            (documents.filter
              (fun d => decide (getA d.metadata "source" = some v))).map
              (storedRowOf documents (schemaNames s))) ∧
    (∀ col col', ChromaDBSink.sink be col documents = .ok col' →
      ∀ v ∈ sourcesToDelete documents,
        col'.entries.filter
            (fun en => decide (getA en.metadata "source" = some v)) =
          (documents.filter
            (fun d => decide (getA d.metadata "source" = some v))).map entryD) := by
  obtain ⟨first, rest, hdocs⟩ : ∃ first rest, documents = first :: rest := by
    cases documents with
    | nil => exact absurd rfl hne
    | cons a l => exact ⟨a, l, rfl⟩
  obtain ⟨e, hemb⟩ := hasVec_exists first (hvec first (hdocs ▸ List.mem_cons_self _ _))
  obtain ⟨s0, hsynth⟩ := create_ok_of_embedding first rest e hemb
  rw [← hdocs] at hsynth
  have hnames : ∀ d ∈ documents, ∀ w, getA d.metadata "source" = some w →
      "source" ∈ schemaNames s0 := by
    intro d hd w hw
    obtain ⟨a, ha⟩ := hsrc d hd w hw
    exact create_source_in_schema documents s0 d w hsynth hd hw (by rw [ha]; rfl)
  constructor
  · intro db tn db' hok
    obtain ⟨haddOk', tMid, db1, hschMid, hmatch, hdb'⟩ :=
      lance_sink_ok_spec be db tn documents db' s0 hne hsynth hok
    refine ⟨s0, _, hsynth, by rw [hdb', getA_setA_self], rfl, ?_⟩
    intro v hv
    have hsne : sourcesToDelete documents ≠ [] := by
      intro h0
      rw [h0] at hv
      cases hv
    show (((afterDelete be (sourcesToDelete documents) tMid).rows ++
        documents.map (storedRowOf documents (schemaNames s0))).filter
          (fun r => decide (getCell r "source" = some v))) = _
    rw [List.filter_append]
    have hkept : ((afterDelete be (sourcesToDelete documents) tMid).rows.filter
        (fun r => decide (getCell r "source" = some v))) = [] := by
      rw [afterDelete_rows_del be _ tMid hdel hsne]
      apply filter_nil_of_not
      intro r hr
      obtain ⟨hrmem, hq⟩ := List.mem_filter.mp hr
      by_cases hp : getCell r "source" = some v
      · exfalso
        have hany : (sourcesToDelete documents).any
            (fun w => decide (getCell r "source" = some w)) = true :=
          List.any_eq_true.mpr ⟨v, hv, by rw [hp]; simp⟩
        rw [hany] at hq
        cases hq
      · exact decide_eq_false hp
    rw [hkept, List.nil_append]
    rw [filter_map_eq (storedRowOf documents (schemaNames s0))
      (fun r => decide (getCell r "source" = some v)) documents]
    rw [filter_congr_mem _ (fun d => decide (getA d.metadata "source" = some v))
      documents (fun d hd => by
        rw [storedRowOf_source documents (schemaNames s0) d hd (hmd d hd)
          (hnames d hd)])]
  · intro col col' hok v hv
    have hsne : sourcesToDelete documents ≠ [] := by
      intro h0
      rw [h0] at hv
      cases hv
    rw [chroma_sink_ok_spec be col documents col' hne hvec haddOk hok]
    show ((chromaAfterDelete be (sourcesToDelete documents) col).entries ++
        documents.map entryD).filter
          (fun en => decide (getA en.metadata "source" = some v)) = _
    rw [List.filter_append]
    have hkept : ((chromaAfterDelete be (sourcesToDelete documents) col).entries.filter
        (fun en => decide (getA en.metadata "source" = some v))) = [] := by
      rw [chromaAfterDelete_entries_del be _ col hdel hsne]
      apply filter_nil_of_not
      intro en hen
      obtain ⟨henmem, hq⟩ := List.mem_filter.mp hen
      by_cases hp : getA en.metadata "source" = some v
      · exfalso
        have hany : (sourcesToDelete documents).any
            (fun w => decide (getA en.metadata "source" = some w)) = true :=
          List.any_eq_true.mpr ⟨v, hv, by rw [hp]; simp⟩
        rw [hany] at hq
        cases hq
      · exact decide_eq_false hp
    rw [hkept, List.nil_append]
    rw [filter_map_eq entryD
      (fun en => decide (getA en.metadata "source" = some v)) documents]
    rw [filter_congr_mem _ (fun d => decide (getA d.metadata "source" = some v))
      documents (fun d hd => by
        show decide (getA (eraseA d.metadata "embedding") "source" = some v) = _
        rw [getA_eraseA_ne _ _ _ (by decide)])]

/-- Witness for C1: a one-chunk batch with origin `a` upserted into a table
holding one stale row of the same origin; applying the claim theorem at this
input yields the exact-contents conclusion. -/
theorem upsert_exact_per_origin_witness :
    ∃ s t',
      create_dynamic_pydantic_model
        [⟨"hello", [("source", .vstr "a"), ("embedding", .vvec [1])]⟩] = .ok s ∧
      getA [("t", (⟨[("text", .fstr), ("vector", .fvector 1), ("source", .fstr)],
        [[("text", some (.vstr "hello")), ("vector", some (.vvec [1])),
          ("source", some (.vstr "a"))]]⟩ : Table))] "t" = some t' ∧
      t'.schema = s ∧
      ∀ v ∈ sourcesToDelete
          [⟨"hello", [("source", .vstr "a"), ("embedding", .vvec [1])]⟩],
        t'.rows.filter (fun r => decide (getCell r "source" = some v)) =
          (([⟨"hello", [("source", .vstr "a"), ("embedding", .vvec [1])]⟩] :
            List Document).filter
            (fun d => decide (getA d.metadata "source" = some v))).map
            (storedRowOf [⟨"hello", [("source", .vstr "a"), ("embedding", .vvec [1])]⟩]
              (schemaNames s)) :=
  (upsert_exact_per_origin ⟨true, true⟩
      [⟨"hello", [("source", .vstr "a"), ("embedding", .vvec [1])]⟩]
      rfl rfl (by decide) (by decide) (by decide)
      (by
        intro d hd w hw
        rw [List.mem_singleton] at hd
        subst hd
        have h0 : getA [("source", Val.vstr "a"), ("embedding", Val.vvec [1])]
            "source" = some (Val.vstr "a") := rfl
        rw [h0] at hw
        exact ⟨"a", (Option.some.inj hw).symm⟩)).1
    [("t", ⟨[("text", .fstr), ("vector", .fvector 1), ("source", .fstr)],
      [[("text", some (.vstr "old")), ("vector", some (.vvec [9])),
        ("source", some (.vstr "a"))]]⟩)]
    "t"
    [("t", ⟨[("text", .fstr), ("vector", .fvector 1), ("source", .fstr)],
      [[("text", some (.vstr "hello")), ("vector", some (.vvec [1])),
        ("source", some (.vstr "a"))]]⟩)]
    (by decide)

/-- C4 (amended): delete failures do not abort the insert step in either
sink; an insert failure propagates out of `LanceDBSink.sink`, whereas
`ChromaDBSink.sink` catches and logs it and returns normally (so only the
delete step ran). -/
theorem insert_delete_failure_semantics :
    (∀ db tn documents db', documents ≠ [] →
      (∀ d ∈ documents, hasVecEmbedding d = true) →
      LanceDBSink.sink ⟨false, true⟩ db tn documents = .ok db' →
      ∃ s tMid db1, create_dynamic_pydantic_model documents = .ok s ∧
        (∀ t0, getA db tn = some t0 → t0.schema = s → db1 = db ∧ tMid = t0) ∧
        db' = setA db1 tn
          ⟨s, tMid.rows ++ documents.map (storedRowOf documents (schemaNames s))⟩) ∧
    (∀ be db tn documents s, be.addOk = false → documents ≠ [] →
      create_dynamic_pydantic_model documents = .ok s →
      ∃ err, LanceDBSink.sink be db tn documents = .error err) ∧
    (∀ col documents, documents ≠ [] →
      (∀ d ∈ documents, hasVecEmbedding d = true) →
      ∃ col1, ChromaDBSink.sink ⟨true, false⟩ col documents = .ok col1) ∧
    (∀ col documents, documents ≠ [] →
      (∀ d ∈ documents, hasVecEmbedding d = true) →
      ChromaDBSink.sink ⟨false, true⟩ col documents =
        .ok ⟨col.entries ++ documents.map entryD⟩) := by
  refine ⟨?_, ?_, ?_, ?_⟩
  · intro db tn documents db' hne hvec hok
    obtain ⟨first, rest, hdocs⟩ : ∃ first rest, documents = first :: rest := by
      cases documents with
      | nil => exact absurd rfl hne
      | cons a l => exact ⟨a, l, rfl⟩
    obtain ⟨e, hemb⟩ :=
      hasVec_exists first (hvec first (hdocs ▸ List.mem_cons_self _ _))
    obtain ⟨s, hsynth⟩ := create_ok_of_embedding first rest e hemb
    rw [← hdocs] at hsynth
    obtain ⟨_, tMid, db1, hschMid, hmatch, hdb'⟩ :=
      lance_sink_ok_spec ⟨false, true⟩ db tn documents db' s hne hsynth hok
    rw [afterDelete_deleteFail] at hdb'
    exact ⟨s, tMid, db1, hsynth, hmatch, hdb'⟩
  · intro be db tn documents s haddF hne hsynth
    rw [lance_sink_eq be db tn documents s hne hsynth]
    cases hoom : openOrMigrate be db tn s with
    | error err => exact ⟨err, rfl⟩
    | ok pair =>
      obtain ⟨db1, table⟩ := pair
      obtain ⟨e, hef⟩ := addDF_addFail be
        (afterDelete be (sourcesToDelete documents) table)
        (mkDF (documents.map recordOf)) haddF
      refine ⟨e, ?_⟩
      show (match Table.addDF be (afterDelete be (sourcesToDelete documents) table)
          (mkDF (documents.map recordOf)) with
        | Except.error err => (Except.error err : Except SinkError DB)
        | Except.ok table2 => Except.ok (setA db1 tn table2)) = Except.error e
      rw [hef]
  · intro col documents hne hvec
    have hie : documents.isEmpty = false := by
      cases documents with
      | nil => exact absurd rfl hne
      | cons a l => rfl
    refine ⟨chromaAfterDelete ⟨true, false⟩ (sourcesToDelete documents) col, ?_⟩
    unfold ChromaDBSink.sink
    rw [hie]
    simp only [Bool.false_eq_true, if_false]
    rw [entriesOf_eq documents hvec]
  · intro col documents hne hvec
    have hie : documents.isEmpty = false := by
      cases documents with
      | nil => exact absurd rfl hne
      | cons a l => rfl
    unfold ChromaDBSink.sink
    rw [hie]
    simp only [Bool.false_eq_true, if_false]
    rw [entriesOf_eq documents hvec]
    show (Except.ok ⟨(chromaAfterDelete ⟨false, true⟩ (sourcesToDelete documents)
        col).entries ++ documents.map entryD⟩ :
      Except SinkError Collection) = _
    rw [chromaAfterDelete_deleteFail]

/-- Witness for the amended C4 at concrete inputs: a failing delete still
inserts (LanceDB and ChromaDB), a failing LanceDB insert propagates, and a
failing ChromaDB insert returns normally. -/
theorem insert_delete_failure_semantics_witness :
    (∃ err, LanceDBSink.sink ⟨true, false⟩
      [("t", (⟨[("text", .fstr), ("vector", .fvector 1), ("source", .fstr)],
        []⟩ : Table))] "t"
      [⟨"hello", [("source", .vstr "a"), ("embedding", .vvec [1])]⟩] =
      .error err) ∧
    (∃ col1, ChromaDBSink.sink ⟨true, false⟩ ⟨[]⟩
      [⟨"hello", [("source", .vstr "a"), ("embedding", .vvec [1])]⟩] =
      .ok col1) ∧
    ChromaDBSink.sink ⟨false, true⟩ ⟨[]⟩
      [⟨"hello", [("source", .vstr "a"), ("embedding", .vvec [1])]⟩] =
      .ok ⟨[] ++ [⟨"hello", [("source", .vstr "a"), ("embedding", .vvec [1])]⟩].map entryD⟩ :=
  ⟨insert_delete_failure_semantics.2.1 ⟨true, false⟩
      [("t", ⟨[("text", .fstr), ("vector", .fvector 1), ("source", .fstr)], []⟩)]
      "t" [⟨"hello", [("source", .vstr "a"), ("embedding", .vvec [1])]⟩]
      [("text", .fstr), ("vector", .fvector 1), ("source", .fstr)]
      rfl (by decide) (by decide),
    insert_delete_failure_semantics.2.2.1 ⟨[]⟩
      [⟨"hello", [("source", .vstr "a"), ("embedding", .vvec [1])]⟩]
      (by decide) (by decide),
    insert_delete_failure_semantics.2.2.2 ⟨[]⟩
      [⟨"hello", [("source", .vstr "a"), ("embedding", .vvec [1])]⟩]
      (by decide) (by decide)⟩

/-- C10: only truthy `source` values take part in the delete-by-origin
grouping; a batch with no truthy origin is still inserted but deletes
nothing, so upserting it again appends the same records a second time
(accumulation). -/
theorem sourceless_documents_accumulate :
    (∀ documents v, v ∈ sourcesToDelete documents →
      v.truthy = true ∧ ∃ d ∈ documents, getA d.metadata "source" = some v) ∧
    (∀ be db tn documents db' s t0, documents ≠ [] →
      (∀ d ∈ documents, ∀ w, getA d.metadata "source" = some w →
        w.truthy = false) →
      create_dynamic_pydantic_model documents = .ok s →
      getA db tn = some t0 → t0.schema = s →
      LanceDBSink.sink be db tn documents = .ok db' →
      getA db' tn = some
        ⟨s, t0.rows ++ documents.map (storedRowOf documents (schemaNames s))⟩) ∧
    (∀ be db tn documents db1' db2' s t0, documents ≠ [] →
      (∀ d ∈ documents, ∀ w, getA d.metadata "source" = some w →
        w.truthy = false) →
      create_dynamic_pydantic_model documents = .ok s →
      getA db tn = some t0 → t0.schema = s →
      LanceDBSink.sink be db tn documents = .ok db1' →
      LanceDBSink.sink be db1' tn documents = .ok db2' →
      ∃ t2, getA db2' tn = some t2 ∧
        t2.rows = t0.rows ++
          documents.map (storedRowOf documents (schemaNames s)) ++
          documents.map (storedRowOf documents (schemaNames s))) := by
  refine ⟨sourcesToDelete_sound, ?_, ?_⟩
  · intro be db tn documents db' s t0 hne hall hsynth ht0 hsch hok
    exact (lance_sink_sourceless be db tn documents db' s t0 hne hall hsynth
      ht0 hsch hok).2
  · intro be db tn documents db1' db2' s t0 hne hall hsynth ht0 hsch hok1 hok2
    obtain ⟨_, hget1⟩ :=
      lance_sink_sourceless be db tn documents db1' s t0 hne hall hsynth
        ht0 hsch hok1
    obtain ⟨_, hget2⟩ :=
      lance_sink_sourceless be db1' tn documents db2' s
        ⟨s, t0.rows ++ documents.map (storedRowOf documents (schemaNames s))⟩
        hne hall hsynth hget1 rfl hok2
    exact ⟨_, hget2, rfl⟩

/-- Witness for C10: a truthy origin is sound at a concrete batch, and a
concrete sourceless one-chunk batch sunk twice into an initially empty table
stores its record twice. -/
theorem sourceless_documents_accumulate_witness :
    ((Val.vstr "a").truthy = true ∧
      ∃ d ∈ [(⟨"hello", [("source", .vstr "a"), ("embedding", .vvec [1])]⟩ : Document)],
        getA d.metadata "source" = some (.vstr "a")) ∧
    ∃ t2, getA [("n", (⟨[("text", .fstr), ("vector", .fvector 1)],
        [[("text", some (.vstr "hi")), ("vector", some (.vvec [2]))],
         [("text", some (.vstr "hi")), ("vector", some (.vvec [2]))]]⟩ : Table))]
        "n" = some t2 ∧
      t2.rows = [] ++
        [(⟨"hi", [("embedding", .vvec [2])]⟩ : Document)].map
          (storedRowOf [⟨"hi", [("embedding", .vvec [2])]⟩]
            (schemaNames [("text", .fstr), ("vector", .fvector 1)])) ++
        [(⟨"hi", [("embedding", .vvec [2])]⟩ : Document)].map
          (storedRowOf [⟨"hi", [("embedding", .vvec [2])]⟩]
            (schemaNames [("text", .fstr), ("vector", .fvector 1)])) :=
  ⟨sourceless_documents_accumulate.1
      [⟨"hello", [("source", .vstr "a"), ("embedding", .vvec [1])]⟩]
      (.vstr "a") (by decide),
    sourceless_documents_accumulate.2.2 ⟨true, true⟩
      [("n", ⟨[("text", .fstr), ("vector", .fvector 1)], []⟩)] "n"
      [⟨"hi", [("embedding", .vvec [2])]⟩]
      [("n", ⟨[("text", .fstr), ("vector", .fvector 1)],
        [[("text", some (.vstr "hi")), ("vector", some (.vvec [2]))]]⟩)]
      [("n", ⟨[("text", .fstr), ("vector", .fvector 1)],
        [[("text", some (.vstr "hi")), ("vector", some (.vvec [2]))],
         [("text", some (.vstr "hi")), ("vector", some (.vvec [2]))]]⟩)]
      [("text", .fstr), ("vector", .fvector 1)]
      ⟨[("text", .fstr), ("vector", .fvector 1)], []⟩
      (by decide)
      (by
        intro d hd w hw
        rw [List.mem_singleton] at hd
        subst hd
        have h0 : getA [("embedding", Val.vvec [2])] "source" = none := rfl
        rw [h0] at hw
        cases hw)
      (by decide) (by decide) (by decide) (by decide) (by decide)⟩

/-! ### Claims about the state manager and orchestrator -/

/-- C7: `has_changed(item_id, fingerprint)` returns true exactly when no
fingerprint is recorded for `item_id` or the recorded one differs from the
supplied one, and the call is a pure read: the ledger state comes back
unchanged. -/
theorem has_changed_spec (fh : String → Option String) (st : StateData)
    (item_id fp : String) :
    ((StateManager.has_changed fh st item_id (some fp)).1 = true ↔
      (getA st.processed_items item_id = none ∨
        ∃ r, getA st.processed_items item_id = some r ∧ r ≠ fp)) ∧
    (StateManager.has_changed fh st item_id (some fp)).2 = st := by
  refine ⟨?_, rfl⟩
  have h1 : (StateManager.has_changed fh st item_id (some fp)).1 =
      decide (getA st.processed_items item_id ≠ some fp) := rfl
  rw [h1, decide_eq_true_iff]
  cases h : getA st.processed_items item_id with
  | none => simp
  | some r =>
    constructor
    · intro hne
      exact Or.inr ⟨r, rfl, fun he => hne (by rw [he])⟩
    · rintro (h' | ⟨r', hr', hne⟩)
      · exact absurd h' (by simp)
      · intro he
        apply hne
        rw [← Option.some.inj hr']
        injection he

/-- C3: when the sink's upsert step raises, the run aborts with the ledger
(in memory and on disk) exactly as it was; fingerprint recording and ledger
persistence run only after the sink call returns without error. -/
theorem fingerprint_commit_only_after_upsert
    (sinkOutcome : Except SinkError Unit) (fh : String → String)
    (saveOk : Bool) (documents : List Document) (w : World) :
    (∀ err, sinkOutcome = .error err →
      run_pipeline_commit sinkOutcome fh saveOk documents w = (w, some err)) ∧
    ((run_pipeline_commit sinkOutcome fh saveOk documents w).2 = none →
      sinkOutcome = .ok () ∧
      (run_pipeline_commit sinkOutcome fh saveOk documents w).1 =
        commit_state fh saveOk documents w) := by
  constructor
  · intro err h
    rw [h]
    rfl
  · intro h
    cases sinkOutcome with
    | error e => simp [run_pipeline_commit] at h
    | ok u => exact ⟨by cases u; rfl, rfl⟩

/-- Witness for C3: a concrete failed sink call (here: the missing-table
`UnboundLocalError` of `LanceDBSink.sink` on an empty database) leaves a
concrete world untouched. -/
theorem fingerprint_commit_only_after_upsert_witness :
    run_pipeline_commit
      ((LanceDBSink.sink ⟨true, true⟩ [] "chunks"
        [⟨"hello", [("source", .vstr "a.txt"), ("embedding", .vvec [1])]⟩]).map
          (fun _ => ()))
      (fun _ => "h1") true [⟨"hello", [("source", .vstr "a.txt")]⟩]
      ⟨⟨[("a.txt", "h0")]⟩, ⟨[("a.txt", "h0")]⟩⟩ =
      (⟨⟨[("a.txt", "h0")]⟩, ⟨[("a.txt", "h0")]⟩⟩, some .unboundLocal) :=
  (fingerprint_commit_only_after_upsert _ _ _ _ _).1 .unboundLocal (by decide)

/-- C9 counterexample: an undecodable JSON payload stored in Redis makes
`RedisStateManager.load_state` raise `json.JSONDecodeError` (only
`redis.exceptions.RedisError` is caught), so the store does not fall back to
an empty ledger on this corrupt backing store. -/
theorem redis_corrupt_payload_raises :
    RedisStateManager.load_state (.ok (some .corrupt)) = .error .jsonDecode ∧
    RedisStateManager.load_state (.ok (some .corrupt)) ≠ .ok emptyStateData :=
  ⟨rfl, by decide⟩

/-- C9 (amended): the JSON-file store falls back to an empty ledger on a
missing file, undecodable JSON, and I/O errors; the Redis store falls back on
Redis errors and on an absent key (but not on an undecodable payload). -/
theorem load_state_fallback_spec :
    JSONStateManager.load_state .missing = emptyStateData ∧
    JSONStateManager.load_state .decodeError = emptyStateData ∧
    JSONStateManager.load_state .ioError = emptyStateData ∧
    RedisStateManager.load_state (.error .connection) = .ok emptyStateData ∧
    RedisStateManager.load_state (.ok none) = .ok emptyStateData :=
  ⟨rfl, rfl, rfl, rfl, rfl⟩

/-! ### Claims settled by direct evaluation of the sink embedding -/

/-- C2: on a schema mismatch with one stored row, `_handle_schema_mismatch`
adds the *un-reindexed* old rows to the recreated table (the reindexed copy
goes only to the temporary table, which is dropped), so the migration raises
a column-mismatch error instead of rewriting the rows under the new schema —
even though the reindexed frame it throws away has exactly the new columns
(second conjunct). -/
theorem migration_drops_reindexed_rows :
    handle_schema_mismatch ⟨true, true⟩
      [("tbl", ⟨[("text", .fstr)], [[("text", some (.vstr "hello"))]]⟩)] "tbl"
      ⟨[("text", .fstr)], [[("text", some (.vstr "hello"))]]⟩
      [("text", .fstr), ("extra", .fint)] = .error .columnMismatch ∧
    (DF.reindex
      (Table.toPandas ⟨[("text", .fstr)], [[("text", some (.vstr "hello"))]]⟩)
      (schemaNames [("text", .fstr), ("extra", .fint)])).cols =
      schemaNames [("text", .fstr), ("extra", .fint)] := by
  decide

/-- C6: upserting against a database with no table of the target name does
not create the table and insert the batch; the `except ValueError:` handler
reads the never-bound local `e` and raises `UnboundLocalError`. -/
theorem sink_missing_table_raises_unbound_local :
    LanceDBSink.sink ⟨true, true⟩ [] "chunks"
      [⟨"hello", [("source", .vstr "a.txt"), ("embedding", .vvec [1, 2])]⟩] =
      .error .unboundLocal := by
  decide

/-- C4 counterexample: an insert failure in `ChromaDBSink.sink` is caught and
logged, and the upsert returns successfully instead of propagating the error
to the orchestrator. -/
theorem chroma_insert_failure_not_propagated :
    ChromaDBSink.sink ⟨true, false⟩ ⟨[]⟩
      [⟨"hello", [("source", .vstr "a.txt"), ("embedding", .vvec [1])]⟩] =
      .ok ⟨[]⟩ := by
  decide

/-- C5 counterexample: a metadata field (`meta`) whose runtime value type is
outside the supported scalar set is silently omitted from the synthesized
schema; no `UnsupportedFieldType` error is raised. -/
theorem unsupported_field_silently_omitted :
    create_dynamic_pydantic_model
      [⟨"t", [("embedding", .vvec [0]), ("source", .vstr "a"),
        ("meta", .vother "dict")]⟩] =
      .ok [("text", .fstr), ("vector", .fvector 1), ("source", .fstr)] ∧
    getA [("text", FieldType.fstr), ("vector", .fvector 1), ("source", .fstr)]
      "meta" = none := by
  decide

/-! ### Claims about schema synthesis -/

/-- C5 (amended): schema synthesis never raises the unsupported-field-type
error — the discovery loop only admits supported types, so the `TypeError`
branch is unreachable — and a metadata key all of whose occurrences have
unsupported runtime value types is silently omitted from the synthesized
schema. -/
theorem unsupported_types_never_raise :
    (∀ documents k t, create_dynamic_pydantic_model documents ≠
      .error (.unsupportedType k t)) ∧
    (∀ documents s k, create_dynamic_pydantic_model documents = .ok s →
      k ≠ "text" → k ≠ "vector" →
      (∀ d ∈ documents, ∀ v, (k, v) ∈ d.metadata → inTypeMap v.pyType = false) →
      getA s k = none) := by
  constructor
  · intro documents k t h
    cases documents with
    | nil => simp [create_dynamic_pydantic_model] at h
    | cons first rest =>
      cases hemb : getA first.metadata "embedding" with
      | none => simp [create_dynamic_pydantic_model, hemb] at h
      | some v =>
        cases v with
        | vvec e =>
          obtain ⟨s, hs, _⟩ :=
            addFields_ok (discoverFields (first :: rest))
              (setA [("text", FieldType.fstr)] "vector" (.fvector e.length))
              (discoverFields_types (first :: rest))
          rw [show create_dynamic_pydantic_model (first :: rest) =
            addFields (setA [("text", FieldType.fstr)] "vector"
              (.fvector e.length)) (discoverFields (first :: rest)) from by
            simp [create_dynamic_pydantic_model, hemb], hs] at h
          cases h
        | vstr a => simp [create_dynamic_pydantic_model, hemb] at h
        | vint a => simp [create_dynamic_pydantic_model, hemb] at h
        | vfloat a => simp [create_dynamic_pydantic_model, hemb] at h
        | vlist a => simp [create_dynamic_pydantic_model, hemb] at h
        | vtimestamp a => simp [create_dynamic_pydantic_model, hemb] at h
        | vother a => simp [create_dynamic_pydantic_model, hemb] at h
  · intro documents s k hsynth hktext hkvec hall
    obtain ⟨first, rest, e, hdocs, hemb, hadd⟩ := create_ok_inv documents s hsynth
    have hnk : k ∉ (discoverFields documents).map Prod.fst := by
      intro hmem
      have hne : getA (discoverFields documents) k ≠ none :=
        fun h0 => ((getA_eq_none_iff _ _).mp h0) hmem
      obtain ⟨d, hd, v, hv, hsupp⟩ :=
        discoverFields_sound documents k (Option.ne_none_iff_isSome.mp hne)
      rw [hall d hd v hv] at hsupp
      cases hsupp
    obtain ⟨s', hs', hpres⟩ :=
      addFields_ok (discoverFields documents)
        (setA [("text", FieldType.fstr)] "vector" (.fvector e.length))
        (discoverFields_types documents)
    have hss : s = s' := by
      rw [hadd] at hs'
      exact Except.ok.inj hs'
    rw [hss, hpres k hnk, getA_setA_ne _ _ _ _ hkvec]
    have htext : ¬ "text" = k := fun h0 => hktext h0.symm
    simp [getA, htext]

/-- Witness for the amended C5: at a concrete batch whose `meta` field holds
a dict, synthesis does not raise the unsupported-type error, and the
synthesized schema omits `meta`. -/
theorem unsupported_types_never_raise_witness :
    create_dynamic_pydantic_model
      [⟨"t", [("embedding", .vvec [0]), ("meta", .vother "dict")]⟩] ≠
      .error (.unsupportedType "meta" (.tother "dict")) ∧
    getA ([("text", FieldType.fstr), ("vector", .fvector 1)] : Schema)
      "meta" = none :=
  ⟨unsupported_types_never_raise.1
      [⟨"t", [("embedding", .vvec [0]), ("meta", .vother "dict")]⟩]
      "meta" (.tother "dict"),
    unsupported_types_never_raise.2
      [⟨"t", [("embedding", .vvec [0]), ("meta", .vother "dict")]⟩]
      [("text", FieldType.fstr), ("vector", .fvector 1)] "meta"
      (by decide) (by decide) (by decide)
      (by
        intro d hd v hv
        rw [List.mem_singleton] at hd
        subst hd
        simp only [List.mem_cons, List.mem_singleton] at hv
        rcases hv with h | h | h
        · simp at h
        · rw [show v = Val.vother "dict" from by simpa using h]
          rfl
        · cases h)⟩

/-- C8 counterexample: a batch whose chunk carries a metadata key literally
named `vector` (e.g. a SQL column name) with a string value.  The batch is
non-empty and its first chunk has an ndarray embedding of dimension 2, yet
the synthesized schema has no vector field of width 2: the step-4 dict
assignment `pydantic_fields[key] = TYPE_MAP[value_type]` overwrites the
`Vector(dim)` field with the metadata field's scalar type. -/
theorem vector_metadata_key_overwrites_vector_field :
    create_dynamic_pydantic_model
      [⟨"row", [("embedding", .vvec [1, 2]), ("vector", .vstr "col")]⟩] =
      .ok [("text", .fstr), ("vector", .fstr)] ∧
    getA ([("text", FieldType.fstr), ("vector", FieldType.fstr)] : Schema)
      "vector" ≠ some (.fvector 2) := by
  decide

/-- C8 (amended): synthesis errors on an empty batch; errors with the
invalid-embedding `ValueError` on a non-empty batch whose first chunk lacks
an ndarray `embedding` metadata value; and otherwise succeeds, with the
schema's `vector` field width equal to the first chunk's embedding
dimensionality provided no chunk carries a metadata key literally named
`vector` — such a key overwrites the vector field with its own scalar type
(see the counterexample). -/
theorem schema_synthesis_edge_cases :
    (create_dynamic_pydantic_model [] = .error .emptyBatch) ∧
    (∀ first rest, hasVecEmbedding first = false →
      create_dynamic_pydantic_model (first :: rest) = .error .invalidEmbedding) ∧
    (∀ first rest e, getA first.metadata "embedding" = some (.vvec e) →
      (∀ d ∈ first :: rest, "vector" ∉ d.metadata.map Prod.fst) →
      ∃ s, create_dynamic_pydantic_model (first :: rest) = .ok s ∧
        getA s "vector" = some (.fvector e.length)) := by
  refine ⟨rfl, ?_, ?_⟩
  · intro first rest h
    unfold hasVecEmbedding at h
    cases hemb : getA first.metadata "embedding" with
    | none => simp [create_dynamic_pydantic_model, hemb]
    | some v =>
      cases v with
      | vvec e => rw [hemb] at h; cases h
      | vstr a => simp [create_dynamic_pydantic_model, hemb]
      | vint a => simp [create_dynamic_pydantic_model, hemb]
      | vfloat a => simp [create_dynamic_pydantic_model, hemb]
      | vlist a => simp [create_dynamic_pydantic_model, hemb]
      | vtimestamp a => simp [create_dynamic_pydantic_model, hemb]
      | vother a => simp [create_dynamic_pydantic_model, hemb]
  · intro first rest e hemb hv
    have hnv : "vector" ∉ (discoverFields (first :: rest)).map Prod.fst := by
      intro hmem
      have hne : getA (discoverFields (first :: rest)) "vector" ≠ none :=
        fun h0 => ((getA_eq_none_iff _ _).mp h0) hmem
      obtain ⟨d, hd, v, hm, _⟩ :=
        discoverFields_sound (first :: rest) "vector"
          (Option.ne_none_iff_isSome.mp hne)
      exact hv d hd (List.mem_map.mpr ⟨("vector", v), hm, rfl⟩)
    obtain ⟨s, hs, hpres⟩ :=
      addFields_ok (discoverFields (first :: rest))
        (setA [("text", FieldType.fstr)] "vector" (.fvector e.length))
        (discoverFields_types (first :: rest))
    refine ⟨s, by simp [create_dynamic_pydantic_model, hemb, hs], ?_⟩
    rw [hpres "vector" hnv, getA_setA_self]

/-- Witness for C8: the empty batch, a concrete first chunk without an
ndarray embedding, and a concrete two-dimensional first embedding. -/
theorem schema_synthesis_edge_cases_witness :
    create_dynamic_pydantic_model [⟨"c", [("source", .vstr "a")]⟩] =
      .error .invalidEmbedding ∧
    ∃ s, create_dynamic_pydantic_model
        [⟨"c", [("source", .vstr "a"), ("embedding", .vvec [3, 4])]⟩] =
        .ok s ∧ getA s "vector" = some (.fvector 2) :=
  ⟨schema_synthesis_edge_cases.2.1 ⟨"c", [("source", .vstr "a")]⟩ [] (by decide),
    schema_synthesis_edge_cases.2.2
      ⟨"c", [("source", .vstr "a"), ("embedding", .vvec [3, 4])]⟩ [] [3, 4]
      (by decide) (by decide)⟩

end YamlPipe
